import Mathlib

/-!
Verification development for the RogueMon-Revo-Data repository.

The Python sources are shallowly embedded as Lean functions:
  - `src/scripts/evolution_analyzer.py`:
      `parse_evolution_file`, `compile_evolution_frequencies`,
      `generate_frequency_report`
  - `src/scripts/evolution_chain_filter.py`:
      `parse_evolution_data`, `build_evolution_chains`,
      `filter_evolution_data`, `generate_output`
  - `src/db/revodb.py`: `parse_patch_file`

Texts are Lean `String`s, processed as `List Char`.  Python `str.strip`,
`str.split`, substring membership and the concrete regular expressions of
the sources are modelled by structurally recursive functions below.
Character classes model the ASCII behaviour of Python's `\w`, `\s`, `\d`
(the claims and inputs at stake are ASCII).  Python dictionaries are
modelled as association lists with first-match lookup and replace-in-place
insertion, which matches dict insertion-order and overwrite semantics.
Python `float` values for percentages are modelled as exact rationals
(IEEE rounding is not modelled; no claim here depends on sub-ulp effects).
-/

namespace RevoData

/-! ## Generic association-list helpers (model of Python dict) -/

/-- First-match lookup in an association list (Python `d[k]` / `k in d`). -/
def alLookup {κ α : Type} [DecidableEq κ] : List (κ × α) → κ → Option α
  | [], _ => none
  | (k', v) :: rest, k => if k' = k then some v else alLookup rest k

/-- Python dict assignment `d[k] = v`: replace the value in place if the key
is present (keeping its position, as CPython dicts do), else append. -/
def dictInsert {κ α : Type} [DecidableEq κ] : List (κ × α) → κ → α → List (κ × α)
  | [], k, v => [(k, v)]
  | (k', v') :: rest, k, v =>
      if k' = k then (k, v) :: rest else (k', v') :: dictInsert rest k v

/-- Python `defaultdict` update `d[k] = f(d.get(k, dflt))`: apply `f` to the
stored value (or to the default when the key is absent). -/
def alUpdate {κ α : Type} [DecidableEq κ] : List (κ × α) → κ → α → (α → α) → List (κ × α)
  | [], k, d, f => [(k, f d)]
  | (k', v) :: rest, k, d, f =>
      if k' = k then (k, f v) :: rest else (k', v) :: alUpdate rest k d f

/-- Keys of an association list, in insertion order. -/
def alKeys {κ α : Type} (l : List (κ × α)) : List κ := l.map Prod.fst

/-- Python `set.add`: sets are modelled as lists up to membership. -/
def setInsert (s : List String) (x : String) : List String :=
  if x ∈ s then s else x :: s

/-! ## Character-level text primitives -/

/-- Python whitespace characters stripped by `str.strip` and matched by the
regex class `\s` (ASCII part). -/
def isPySpace (c : Char) : Bool :=
  c = ' ' || c = '\t' || c = '\n' || c = '\r' || c = '\x0b' || c = '\x0c'

/-- Regex class `\w` (ASCII part): letters, digits and underscore. -/
def isPyWord (c : Char) : Bool := c.isAlphanum || c = '_'

/-- Regex class `\d` (ASCII part). -/
def isPyDigit (c : Char) : Bool := c.isDigit

/-- Python `str.strip()`: drop whitespace from both ends. -/
def pyStrip (cs : List Char) : List Char :=
  ((cs.dropWhile isPySpace).reverse.dropWhile isPySpace).reverse

/-- Python `s.split(c)` for a one-character separator. -/
def splitOnChar (a : Char) : List Char → List (List Char)
  | [] => [[]]
  | c :: rest =>
      if c = a then [] :: splitOnChar a rest
      else
        match splitOnChar a rest with
        | [] => [[c]]
        | piece :: pieces => (c :: piece) :: pieces

/-- Python `s.split(sep)` for the two-character separator `sep = ab`
(leftmost, non-overlapping occurrences). -/
def splitOn2 (a b : Char) : List Char → List (List Char)
  | [] => [[]]
  | [c] => [[c]]
  | c₁ :: c₂ :: rest =>
      if c₁ = a ∧ c₂ = b then [] :: splitOn2 a b rest
      else
        match splitOn2 a b (c₂ :: rest) with
        | [] => [[c₁]]
        | piece :: pieces => (c₁ :: piece) :: pieces

/-- Python substring test `"ab" in s` for the two-character pattern. -/
def hasSub2 (a b : Char) : List Char → Bool
  | [] => false
  | [_] => false
  | c₁ :: c₂ :: rest => (c₁ = a && c₂ = b) || hasSub2 a b (c₂ :: rest)

/-- Value of Python `int` on a string of decimal digits. -/
def digitsToNat (cs : List Char) : Nat :=
  cs.foldl (fun a c => 10 * a + (c.toNat - 48)) 0

/-! ## Stable sort (model of Python `sorted`) -/

/-- Stable insertion of `x` before the first element `y` with `le x y`
(`x` originated earlier than the sorted tail, so ties keep `x` first,
as Python's stable sort does). -/
def stableInsert {α : Type} (le : α → α → Bool) (x : α) : List α → List α
  | [] => [x]
  | y :: ys => if le x y then x :: y :: ys else y :: stableInsert le x ys

/-- Stable sort by the boolean relation `le`; models Python `sorted`. -/
def stableSort {α : Type} (le : α → α → Bool) : List α → List α
  | [] => []
  | x :: xs => stableInsert le x (stableSort le xs)

theorem stableInsert_perm {α : Type} (le : α → α → Bool) (x : α) (l : List α) :
    (stableInsert le x l).Perm (x :: l) := by
  induction l with
  | nil => simp [stableInsert]
  | cons y ys ih =>
      simp only [stableInsert]
      by_cases h : le x y
      · simp [h]
      · simp only [h, if_neg, Bool.false_eq_true, if_false]
        exact ((ih.cons y).trans (List.Perm.swap x y ys))

theorem stableSort_perm {α : Type} (le : α → α → Bool) (l : List α) :
    (stableSort le l).Perm l := by
  induction l with
  | nil => simp [stableSort]
  | cons x xs ih =>
      exact (stableInsert_perm le x (stableSort le xs)).trans (ih.cons x)

theorem mem_stableSort {α : Type} (le : α → α → Bool) (l : List α) (a : α) :
    a ∈ stableSort le l ↔ a ∈ l :=
  (stableSort_perm le l).mem_iff

theorem pairwise_stableInsert {α : Type} (le : α → α → Bool)
    (tr : ∀ a b c, le a b = true → le b c = true → le a c = true)
    (total : ∀ a b, le a b || le b a) (x : α) (l : List α)
    (h : l.Pairwise (fun a b => le a b = true)) :
    (stableInsert le x l).Pairwise (fun a b => le a b = true) := by
  induction l with
  | nil => simp [stableInsert]
  | cons y ys ih =>
      rcases List.pairwise_cons.mp h with ⟨hy, hys⟩
      simp only [stableInsert]
      by_cases hxy : le x y = true
      · rw [if_pos hxy]
        refine List.pairwise_cons.mpr ⟨?_, h⟩
        intro b hb
        rcases List.mem_cons.mp hb with rfl | hb
        · exact hxy
        · exact tr x y b hxy (hy b hb)
      · rw [if_neg hxy]
        refine List.pairwise_cons.mpr ⟨?_, ih hys⟩
        intro b hb
        rcases List.mem_cons.mp ((stableInsert_perm le x ys).mem_iff.mp hb) with rfl | hb
        · have htot := total b y
          rcases Bool.or_eq_true_iff.mp htot with h1 | h1
          · exact absurd h1 hxy
          · exact h1
        · exact hy b hb

theorem pairwise_stableSort {α : Type} (le : α → α → Bool)
    (tr : ∀ a b c, le a b = true → le b c = true → le a c = true)
    (total : ∀ a b, le a b || le b a) (l : List α) :
    (stableSort le l).Pairwise (fun a b => le a b = true) := by
  induction l with
  | nil => simp [stableSort]
  | cons x xs ih => exact pairwise_stableInsert le tr total x _ ih

/-! ## Branch grammar: `parse_evolution_file` (evolution_analyzer.py)

Source loop body, for each line after the header:

    if "->" in line:
        parts = line.split("->")
        if len(parts) != 2:
            continue
        base_pokemon = parts[0].strip()
        evolutions_part = parts[1].strip()
        evolutions = evolutions_part.split("|")
        evolution_data[base_pokemon] = [evo.strip() for evo in evolutions]

The two guards together admit a line exactly when `line.split("->")` has
exactly two parts, which the `match` below expresses. -/

/-- One iteration of the `parse_evolution_file` line loop, updating the
per-file dict. -/
def branchStep (d : List (String × List String)) (line : List Char) :
    List (String × List String) :=
  match splitOn2 '-' '>' line with
  | [l, r] =>
      dictInsert d (pyStrip l).asString
        ((splitOnChar '|' (pyStrip r)).map (fun e => (pyStrip e).asString))
  | _ => d

/-- Model of `parse_evolution_file`: strip the file, split into lines, skip
the header line, fold the line loop over the rest.  The resulting
association list has dict semantics (unique keys, later lines overwrite). -/
def parse_evolution_file (content : String) : List (String × List String) :=
  ((splitOnChar '\n' (pyStrip content.data)).drop 1).foldl branchStep []

/-! ## Frequency aggregator: `compile_evolution_frequencies`

Source:

    frequencies = defaultdict(lambda: defaultdict(lambda: defaultdict(int)))
    for file_content in file_contents:
        evolution_data = parse_evolution_file(file_content)
        for base_pokemon, evolutions in evolution_data.items():
            for i, evolved_pokemon in enumerate(evolutions):
                frequencies[base_pokemon][i][evolved_pokemon] += 1
-/

/-- Three-level frequency table: source entity, branch index, target entity,
occurrence count.  Association lists model the nested defaultdicts. -/
abbrev FreqTable := List (String × List (Nat × List (String × Nat)))

/-- The single increment `frequencies[base][i][evo] += 1`, auto-vivifying
the two inner dicts as `defaultdict` does. -/
def freqStep (t : FreqTable) (base : String) (i : Nat) (evo : String) : FreqTable :=
  alUpdate t base [] (fun br => alUpdate br i [] (fun tg => alUpdate tg evo 0 (· + 1)))

/-- The inner `for i, evolved_pokemon in enumerate(evolutions)` loop,
carrying the running index. -/
def applyRecordAux (t : FreqTable) (base : String) (i : Nat) :
    List String → FreqTable
  | [] => t
  | evo :: rest => applyRecordAux (freqStep t base i evo) base (i + 1) rest

/-- Increments contributed by one parsed record `(base, evolutions)`. -/
def applyRecord (t : FreqTable) (base : String) (evolutions : List String) : FreqTable :=
  applyRecordAux t base 0 evolutions

/-- Increments contributed by one input file. -/
def applyFile (t : FreqTable) (content : String) : FreqTable :=
  (parse_evolution_file content).foldl (fun acc r => applyRecord acc r.1 r.2) t

/-- Model of `compile_evolution_frequencies`. -/
def compile_evolution_frequencies (file_contents : List String) : FreqTable :=
  file_contents.foldl applyFile []

/-- Lookup of the count stored at `(base, i, evo)`; `none` when some level
of the table has no such key. -/
def lookupCount (t : FreqTable) (base : String) (i : Nat) (evo : String) : Option Nat :=
  (alLookup t base).bind fun br => (alLookup br i).bind fun tg => alLookup tg evo

/-- The count at `(base, i, evo)`, zero when absent. -/
def countOf (t : FreqTable) (base : String) (i : Nat) (evo : String) : Nat :=
  (lookupCount t base i evo).getD 0

/-- Contribution of a single file to the `(base, i, evo)` cell: 1 when the
file's parsed dict maps `base` to a list whose `i`-th element is `evo`. -/
def fileContrib (content : String) (base : String) (i : Nat) (evo : String) : Nat :=
  match alLookup (parse_evolution_file content) base with
  | some evos => if evos.get? i = some evo then 1 else 0
  | none => 0

/-! ## Lookup and update lemmas -/

theorem alLookup_alUpdate_self {κ α : Type} [DecidableEq κ]
    (l : List (κ × α)) (k : κ) (d : α) (f : α → α) :
    alLookup (alUpdate l k d f) k = some (f ((alLookup l k).getD d)) := by
  induction l with
  | nil => simp [alLookup, alUpdate]
  | cons p rest ih =>
      obtain ⟨k', v⟩ := p
      by_cases h : k' = k
      · subst h
        simp [alLookup, alUpdate]
      · simp [alLookup, alUpdate, h, ih]

theorem alLookup_alUpdate_ne {κ α : Type} [DecidableEq κ]
    (l : List (κ × α)) (k k' : κ) (d : α) (f : α → α) (hne : k' ≠ k) :
    alLookup (alUpdate l k d f) k' = alLookup l k' := by
  have hkk : ¬ k = k' := fun h => hne h.symm
  induction l with
  | nil =>
      simp only [alUpdate, alLookup]
      rw [if_neg hkk]
  | cons p rest ih =>
      obtain ⟨k₀, v⟩ := p
      by_cases h : k₀ = k
      · subst h
        simp only [alUpdate, if_pos rfl, alLookup]
        rw [if_neg hkk, if_neg hkk]
      · by_cases h2 : k₀ = k'
        · subst h2
          simp [alLookup, alUpdate, h]
        · simp [alLookup, alUpdate, h, h2, ih]

theorem alLookup_mem {κ α : Type} [DecidableEq κ]
    {l : List (κ × α)} {k : κ} {v : α} (h : alLookup l k = some v) : (k, v) ∈ l := by
  induction l with
  | nil => simp [alLookup] at h
  | cons p rest ih =>
      obtain ⟨k₀, v₀⟩ := p
      by_cases hk : k₀ = k
      · subst hk
        simp [alLookup] at h
        simp [h]
      · simp [alLookup, hk] at h
        exact List.mem_cons_of_mem _ (ih h)

@[simp] theorem alKeys_nil {κ α : Type} : alKeys ([] : List (κ × α)) = [] := rfl

@[simp] theorem alKeys_cons {κ α : Type} (p : κ × α) (l : List (κ × α)) :
    alKeys (p :: l) = p.1 :: alKeys l := rfl

theorem alLookup_isSome_of_mem_keys {κ α : Type} [DecidableEq κ]
    {l : List (κ × α)} {k : κ} (h : k ∈ alKeys l) : ∃ v, alLookup l k = some v := by
  induction l with
  | nil => simp at h
  | cons p rest ih =>
      obtain ⟨k₀, v₀⟩ := p
      by_cases hk : k₀ = k
      · subst hk
        exact ⟨v₀, by simp [alLookup]⟩
      · rcases List.mem_cons.mp h with h1 | h1
        · exact absurd h1.symm hk
        · rcases ih h1 with ⟨v, hv⟩
          exact ⟨v, by simp [alLookup, hk, hv]⟩

theorem mem_keys_of_alLookup {κ α : Type} [DecidableEq κ]
    {l : List (κ × α)} {k : κ} {v : α} (h : alLookup l k = some v) : k ∈ alKeys l := by
  have := alLookup_mem h
  exact List.mem_map.mpr ⟨(k, v), this, rfl⟩

theorem alLookup_eq_none_of_not_mem_keys {κ α : Type} [DecidableEq κ]
    {l : List (κ × α)} {k : κ} (h : k ∉ alKeys l) : alLookup l k = none := by
  cases heq : alLookup l k with
  | none => rfl
  | some v => exact absurd (mem_keys_of_alLookup heq) h

theorem mem_alUpdate {κ α : Type} [DecidableEq κ]
    {l : List (κ × α)} {k : κ} {d : α} {f : α → α} {x : κ × α}
    (h : x ∈ alUpdate l k d f) :
    x ∈ l ∨ x = (k, f ((alLookup l k).getD d)) := by
  induction l with
  | nil =>
      simp [alUpdate] at h
      simp [alLookup, h]
  | cons p rest ih =>
      obtain ⟨k₀, v₀⟩ := p
      by_cases hk : k₀ = k
      · subst hk
        simp only [alUpdate, if_pos rfl] at h
        rcases List.mem_cons.mp h with rfl | h
        · right
          simp [alLookup]
        · exact Or.inl (List.mem_cons_of_mem _ h)
      · simp only [alUpdate, if_neg hk] at h
        rcases List.mem_cons.mp h with rfl | h
        · exact Or.inl (List.mem_cons_self _ _)
        · rcases ih h with h | h
          · exact Or.inl (List.mem_cons_of_mem _ h)
          · right
            simpa [alLookup, hk] using h

theorem alUpdate_ne_nil {κ α : Type} [DecidableEq κ]
    (l : List (κ × α)) (k : κ) (d : α) (f : α → α) : alUpdate l k d f ≠ [] := by
  cases l with
  | nil => simp [alUpdate]
  | cons p rest =>
      obtain ⟨k₀, v₀⟩ := p
      by_cases hk : k₀ = k
      · simp [alUpdate, hk]
      · simp [alUpdate, hk]

/-! ## Counting lemmas for the aggregator -/

theorem lookupCount_freqStep (t : FreqTable) (b : String) (i : Nat) (e : String)
    (b' : String) (i' : Nat) (e' : String) :
    lookupCount (freqStep t b i e) b' i' e' =
      if b = b' ∧ i = i' ∧ e = e' then some (countOf t b' i' e' + 1)
      else lookupCount t b' i' e' := by
  by_cases hb : b = b'
  · subst hb
    by_cases hi : i = i'
    · subst hi
      by_cases he : e = e'
      · subst he
        simp only [and_self, if_true, lookupCount, freqStep, countOf,
          alLookup_alUpdate_self, Option.some_bind]
        cases ht : alLookup t b with
        | none => simp [alLookup_alUpdate_self, alLookup]
        | some br =>
            simp only [Option.getD_some, alLookup_alUpdate_self, Option.some_bind]
            cases hbr : alLookup br i with
            | none => simp [alLookup_alUpdate_self, alLookup]
            | some tg => simp [alLookup_alUpdate_self]
      · have hcond : ¬ (b = b ∧ i = i ∧ e = e') := by simp [he]
        rw [if_neg hcond]
        simp only [lookupCount, freqStep, alLookup_alUpdate_self, Option.some_bind]
        cases ht : alLookup t b with
        | none =>
            simp [alLookup_alUpdate_self, Option.some_bind, alLookup, he,
              alLookup_alUpdate_ne _ _ _ _ _ (fun h => he h.symm)]
        | some br =>
            simp only [Option.getD_some, alLookup_alUpdate_self, Option.some_bind]
            rw [alLookup_alUpdate_ne _ _ _ _ _ (fun h => he h.symm)]
            cases hbr : alLookup br i <;> simp [alLookup]
    · have hcond : ¬ (b = b ∧ i = i' ∧ e = e') := by simp [hi]
      rw [if_neg hcond]
      simp only [lookupCount, freqStep, alLookup_alUpdate_self, Option.some_bind]
      rw [alLookup_alUpdate_ne _ _ _ _ _ (fun h => hi h.symm)]
      cases ht : alLookup t b <;> simp [alLookup]
  · have hcond : ¬ (b = b' ∧ i = i' ∧ e = e') := by simp [hb]
    rw [if_neg hcond]
    simp only [lookupCount, freqStep]
    rw [alLookup_alUpdate_ne _ _ _ _ _ (fun h => hb h.symm)]

theorem countOf_freqStep (t : FreqTable) (b : String) (i : Nat) (e : String)
    (b' : String) (i' : Nat) (e' : String) :
    countOf (freqStep t b i e) b' i' e' =
      countOf t b' i' e' + (if b = b' ∧ i = i' ∧ e = e' then 1 else 0) := by
  rw [countOf, lookupCount_freqStep]
  by_cases h : b = b' ∧ i = i' ∧ e = e'
  · rw [if_pos h, if_pos h]
    rfl
  · rw [if_neg h, if_neg h]
    rfl

theorem countOf_applyRecordAux (evos : List String) (t : FreqTable) (b : String)
    (i₀ : Nat) (b' : String) (i' : Nat) (e' : String) :
    countOf (applyRecordAux t b i₀ evos) b' i' e' =
      countOf t b' i' e' +
        (if b = b' ∧ i₀ ≤ i' ∧ evos.get? (i' - i₀) = some e' then 1 else 0) := by
  induction evos generalizing t i₀ with
  | nil => simp [applyRecordAux]
  | cons e rest ih =>
      simp only [applyRecordAux]
      rw [ih, countOf_freqStep]
      by_cases hb : b = b'
      · subst hb
        rcases Nat.lt_trichotomy i' i₀ with hlt | heq | hgt
        · have h1 : ¬ (i₀ = i') := by omega

          have h2 : ¬ (i₀ + 1 ≤ i') := by omega
          have h3 : ¬ (i₀ ≤ i') := by omega
          simp [h1, h2, h3]
        · subst heq
          have h2 : ¬ (i' + 1 ≤ i') := by omega
          rw [Nat.sub_self, List.get?_cons_zero]
          by_cases he : e = e'
          · simp [he, h2]
          · simp [he, h2]
        · have h1 : ¬ (i₀ = i') := by omega
          have h2 : i₀ + 1 ≤ i' := by omega
          have h3 : i₀ ≤ i' := by omega
          have h4 : i' - i₀ = (i' - (i₀ + 1)) + 1 := by omega
          simp [h1, h2, h3, h4, List.get?]
      · simp [hb]

theorem countOf_applyRecord (t : FreqTable) (b : String) (evos : List String)
    (b' : String) (i' : Nat) (e' : String) :
    countOf (applyRecord t b evos) b' i' e' =
      countOf t b' i' e' + (if b = b' ∧ evos.get? i' = some e' then 1 else 0) := by
  simp [applyRecord, countOf_applyRecordAux]

/-- Contribution of one parsed dict (as looked up by `alLookup`) to a cell. -/
def dictContrib (rs : List (String × List String)) (b : String) (i : Nat) (e : String) : Nat :=
  match alLookup rs b with
  | some evos => if evos.get? i = some e then 1 else 0
  | none => 0

theorem countOf_foldRecords (rs : List (String × List String)) (t : FreqTable)
    (hnd : (alKeys rs).Nodup) (b : String) (i : Nat) (e : String) :
    countOf (rs.foldl (fun acc r => applyRecord acc r.1 r.2) t) b i e =
      countOf t b i e + dictContrib rs b i e := by
  induction rs generalizing t with
  | nil => simp [dictContrib, alLookup]
  | cons r rest ih =>
      obtain ⟨b₀, evos₀⟩ := r
      have hnd' : (alKeys rest).Nodup := (List.nodup_cons.mp hnd).2
      have hb₀ : b₀ ∉ alKeys rest := (List.nodup_cons.mp hnd).1
      simp only [List.foldl_cons]
      rw [ih _ hnd', countOf_applyRecord]
      by_cases hb : b₀ = b
      · subst hb
        have : alLookup rest b₀ = none := alLookup_eq_none_of_not_mem_keys hb₀
        simp [dictContrib, alLookup, this]
      · simp [dictContrib, alLookup, hb]

theorem mem_keys_dictInsert {κ α : Type} [DecidableEq κ]
    (l : List (κ × α)) (k : κ) (v : α) (x : κ)
    (hx : x ∈ alKeys (dictInsert l k v)) : x ∈ alKeys l ∨ x = k := by
  induction l with
  | nil =>
      simp only [dictInsert, alKeys_cons, alKeys_nil, List.mem_singleton] at hx
      exact Or.inr hx
  | cons q qrest ihq =>
      obtain ⟨kq, vq⟩ := q
      by_cases hkq : kq = k
      · subst hkq
        rcases List.mem_cons.mp (by simpa [dictInsert] using hx) with rfl | hx'
        · exact Or.inr rfl
        · exact Or.inl (List.mem_cons_of_mem _ hx')
      · rcases List.mem_cons.mp (by simpa [dictInsert, hkq] using hx) with rfl | hx'
        · exact Or.inl (List.mem_cons_self _ _)
        · rcases ihq hx' with h' | h'
          · exact Or.inl (List.mem_cons_of_mem _ h')
          · exact Or.inr h'

theorem dictInsert_keys_nodup {κ α : Type} [DecidableEq κ]
    (l : List (κ × α)) (k : κ) (v : α)
    (hd : (alKeys l).Nodup) : (alKeys (dictInsert l k v)).Nodup := by
  induction l with
  | nil => simp [dictInsert]
  | cons p rest ih =>
      obtain ⟨k₀, v₀⟩ := p
      by_cases hk : k₀ = k
      · subst hk
        simpa [dictInsert] using hd
      · rcases List.nodup_cons.mp hd with ⟨hk₀, hrest⟩
        simp only [dictInsert, if_neg hk, alKeys_cons]
        refine List.nodup_cons.mpr ⟨?_, ih hrest⟩
        intro hmem
        rcases mem_keys_dictInsert rest k v k₀ hmem with h' | h'
        · exact hk₀ h'
        · exact hk h'

theorem branchStep_keys_nodup (d : List (String × List String)) (line : List Char)
    (h : (alKeys d).Nodup) : (alKeys (branchStep d line)).Nodup := by
  have hins := dictInsert_keys_nodup (κ := String) (α := List String)
  unfold branchStep
  cases hsplit : splitOn2 '-' '>' line with
  | nil => exact h
  | cons p ps =>
      cases ps with
      | nil => exact h
      | cons q qs =>
          cases qs with
          | nil => exact hins _ _ _ h
          | cons _ _ => exact h

theorem parse_evolution_file_keys_nodup (content : String) :
    (alKeys (parse_evolution_file content)).Nodup := by
  unfold parse_evolution_file
  generalize ((splitOnChar '\n' (pyStrip content.data)).drop 1) = lines
  have : ∀ (ls : List (List Char)) (d : List (String × List String)),
      (alKeys d).Nodup → (alKeys (ls.foldl branchStep d)).Nodup := by
    intro ls
    induction ls with
    | nil => intro d hd; exact hd
    | cons l rest ih =>
        intro d hd
        exact ih _ (branchStep_keys_nodup d l hd)
  exact this lines [] (by simp)

theorem countOf_applyFile (t : FreqTable) (c : String) (b : String) (i : Nat) (e : String) :
    countOf (applyFile t c) b i e = countOf t b i e + fileContrib c b i e := by
  unfold applyFile fileContrib
  rw [countOf_foldRecords _ _ (parse_evolution_file_keys_nodup c)]
  rfl

theorem countOf_compile (files : List String) (b : String) (i : Nat) (e : String) :
    countOf (compile_evolution_frequencies files) b i e =
      (files.map (fun c => fileContrib c b i e)).sum := by
  unfold compile_evolution_frequencies
  have : ∀ (fs : List String) (t : FreqTable),
      countOf (fs.foldl applyFile t) b i e =
        countOf t b i e + (fs.map (fun c => fileContrib c b i e)).sum := by
    intro fs
    induction fs with
    | nil => intro t; simp
    | cons c rest ih =>
        intro t
        simp only [List.foldl_cons, List.map_cons, List.sum_cons]
        rw [ih, countOf_applyFile]
        omega
  rw [this files []]
  simp [countOf, lookupCount, alLookup]

/-! ## Structural invariant of compiled tables

Increments create every intermediate dict, so inner dicts are never empty
and every stored count is at least 1 (each present triple was observed). -/

/-- Tables reachable by increments only: non-empty inner dicts, positive counts. -/
def wfTable (t : FreqTable) : Prop :=
  ∀ p ∈ t, p.2 ≠ [] ∧ ∀ q ∈ p.2, q.2 ≠ [] ∧ ∀ r ∈ q.2, 0 < r.2

theorem wfTable_freqStep {t : FreqTable} (hw : wfTable t)
    (b : String) (i : Nat) (e : String) : wfTable (freqStep t b i e) := by
  intro p hp
  rcases mem_alUpdate hp with hp | rfl
  · exact hw p hp
  · refine ⟨alUpdate_ne_nil _ _ _ _, ?_⟩
    intro q hq
    rcases mem_alUpdate hq with hq | rfl
    · cases hbr : alLookup t b with
      | none => simp [hbr] at hq
      | some br =>
          have := (hw _ (alLookup_mem hbr)).2
          simp only [hbr, Option.getD_some] at hq
          exact this q hq
    · refine ⟨alUpdate_ne_nil _ _ _ _, ?_⟩
      intro r hr
      rcases mem_alUpdate hr with hr | rfl
      · cases hbr : alLookup t b with
        | none => simp [hbr, alLookup] at hr
        | some br =>
            simp only [hbr, Option.getD_some] at hr
            cases htg : alLookup br i with
            | none => simp [htg] at hr
            | some tg =>
                simp only [htg, Option.getD_some] at hr
                exact ((hw _ (alLookup_mem hbr)).2 _ (alLookup_mem htg)).2 r hr
      · simp

theorem wfTable_applyRecordAux {t : FreqTable} (hw : wfTable t)
    (b : String) (i : Nat) (evos : List String) :
    wfTable (applyRecordAux t b i evos) := by
  induction evos generalizing t i with
  | nil => exact hw
  | cons e rest ih => exact ih (wfTable_freqStep hw b i e) _

theorem wfTable_compile (files : List String) :
    wfTable (compile_evolution_frequencies files) := by
  unfold compile_evolution_frequencies
  have hstep : ∀ (rs : List (String × List String)) (t : FreqTable), wfTable t →
      wfTable (rs.foldl (fun acc r => applyRecord acc r.1 r.2) t) := by
    intro rs
    induction rs with
    | nil => intro t ht; exact ht
    | cons r rest ih =>
        intro t ht
        exact ih _ (wfTable_applyRecordAux ht r.1 0 r.2)
  have : ∀ (fs : List String) (t : FreqTable), wfTable t → wfTable (fs.foldl applyFile t) := by
    intro fs
    induction fs with
    | nil => intro t ht; exact ht
    | cons c rest ih =>
        intro t ht
        exact ih _ (hstep _ t ht)
  exact this files [] (by intro p hp; simp at hp)

theorem lookupCount_pos_of_wf {t : FreqTable} (hw : wfTable t)
    {b : String} {i : Nat} {e : String} {c : Nat}
    (h : lookupCount t b i e = some c) : 0 < c := by
  unfold lookupCount at h
  cases ht : alLookup t b with
  | none => simp [ht] at h
  | some br =>
      simp only [ht, Option.some_bind] at h
      cases hbr : alLookup br i with
      | none => simp [hbr] at h
      | some tg =>
          simp only [hbr, Option.some_bind] at h
          exact ((hw _ (alLookup_mem ht)).2 _ (alLookup_mem hbr)).2 _ (alLookup_mem h)

theorem lookupCount_eq_of_countOf {t t' : FreqTable} (hw : wfTable t) (hw' : wfTable t')
    (b : String) (i : Nat) (e : String)
    (h : countOf t b i e = countOf t' b i e) :
    lookupCount t b i e = lookupCount t' b i e := by
  cases h1 : lookupCount t b i e with
  | none =>
      cases h2 : lookupCount t' b i e with
      | none => rfl
      | some c' =>
          have hpos := lookupCount_pos_of_wf hw' h2
          have e1 : countOf t b i e = 0 := by simp [countOf, h1]
          have e2 : countOf t' b i e = c' := by simp [countOf, h2]
          omega
  | some c =>
      cases h2 : lookupCount t' b i e with
      | none =>
          have hpos := lookupCount_pos_of_wf hw h1
          have e1 : countOf t b i e = c := by simp [countOf, h1]
          have e2 : countOf t' b i e = 0 := by simp [countOf, h2]
          omega
      | some c' =>
          have e1 : countOf t b i e = c := by simp [countOf, h1]
          have e2 : countOf t' b i e = c' := by simp [countOf, h2]
          have hcc : c = c' := by omega
          rw [hcc]

theorem sourceKey_iff_of_wf {t : FreqTable} (hw : wfTable t) (b : String) :
    b ∈ alKeys t ↔ ∃ i e, (lookupCount t b i e).isSome := by
  constructor
  · intro hb
    rcases alLookup_isSome_of_mem_keys hb with ⟨br, hbr⟩
    have hbrne := (hw _ (alLookup_mem hbr)).1
    cases br with
    | nil => exact absurd rfl hbrne
    | cons q qs =>
        have htgne := ((hw _ (alLookup_mem hbr)).2 q (List.mem_cons_self _ _)).1
        cases htg : q.2 with
        | nil => exact absurd htg htgne
        | cons r rs =>
            refine ⟨q.1, r.1, ?_⟩
            simp [lookupCount, hbr, alLookup, htg]
  · rintro ⟨i, e, h⟩
    rcases Option.isSome_iff_exists.mp h with ⟨c, hc⟩
    unfold lookupCount at hc
    cases ht : alLookup t b with
    | none => simp [ht] at hc
    | some br => exact mem_keys_of_alLookup ht

theorem branchKey_iff_of_wf {t : FreqTable} (hw : wfTable t) (b : String) (i : Nat) :
    i ∈ alKeys ((alLookup t b).getD []) ↔ ∃ e, (lookupCount t b i e).isSome := by
  constructor
  · intro hi
    cases ht : alLookup t b with
    | none => simp [ht] at hi
    | some br =>
        simp only [ht, Option.getD_some] at hi
        rcases alLookup_isSome_of_mem_keys hi with ⟨tg, htg⟩
        have htgne := ((hw _ (alLookup_mem ht)).2 _ (alLookup_mem htg)).1
        cases hc : tg with
        | nil => exact absurd hc htgne
        | cons r rs =>
            refine ⟨r.1, ?_⟩
            simp [lookupCount, ht, htg, hc, alLookup]
  · rintro ⟨e, h⟩
    rcases Option.isSome_iff_exists.mp h with ⟨c, hc⟩
    unfold lookupCount at hc
    cases ht : alLookup t b with
    | none => simp [ht] at hc
    | some br =>
        simp only [ht, Option.some_bind, Option.getD_some] at hc ⊢
        cases hbr : alLookup br i with
        | none => simp [hbr] at hc
        | some tg => exact mem_keys_of_alLookup hbr

/-! ## Graph closure builder: `build_evolution_chains` (evolution_chain_filter.py)

Source:

    evolution_chain = set(starter_pokemon)
    to_check = list(starter_pokemon)
    checked = set()
    while to_check:
        current = to_check.pop(0)
        if current in checked or current not in evolution_data:
            continue
        checked.add(current)
        for evolution, _ in evolution_data[current]:
            evolution_chain.add(evolution)
            if evolution not in checked:
                to_check.append(evolution)
    return evolution_chain
-/

/-- Mapping from a source entity to its list of (target, weight) pairs,
as produced by `parse_evolution_data`. -/
abbrev EvoMap := List (String × List (String × Nat))

/-- The worklist loop of `build_evolution_chains`.  Terminates because each
expansion step marks a fresh key of `data` as checked and skip steps shorten
the worklist. -/
def chainLoop (data : EvoMap) : List String → List String → List String → List String
  | [], chain, _ => chain
  | current :: rest, chain, checked =>
      if current ∈ checked ∨ alLookup data current = none then
        chainLoop data rest chain checked
      else
        chainLoop data
          (rest ++ ((alLookup data current).getD []).filterMap
            (fun p => if p.1 ∈ current :: checked then none else some p.1))
          (((alLookup data current).getD []).foldl (fun c p => setInsert c p.1) chain)
          (current :: checked)
termination_by toCheck _ checked =>
  (((data.map Prod.fst).toFinset \ checked.toFinset).card, toCheck.length)
decreasing_by
· apply Prod.Lex.right
  simp
· rename_i hcond
  apply Prod.Lex.left
  have h1 : current ∉ checked := fun hc => hcond (Or.inl hc)
  have h2 : alLookup data current ≠ none := fun hn => hcond (Or.inr hn)
  have h3 : current ∈ data.map Prod.fst := by
    cases hl : alLookup data current with
    | none => exact absurd hl h2
    | some v => exact mem_keys_of_alLookup hl
  have hsub : (data.map Prod.fst).toFinset \ (current :: checked).toFinset ⊆
      (data.map Prod.fst).toFinset \ checked.toFinset := by
    intro x hx
    simp only [Finset.mem_sdiff, List.mem_toFinset, List.mem_cons, not_or] at hx ⊢
    exact ⟨hx.1, hx.2.2⟩
  have hmem : current ∈ (data.map Prod.fst).toFinset \ checked.toFinset := by
    simp only [Finset.mem_sdiff, List.mem_toFinset]
    exact ⟨h3, h1⟩
  have hnot : current ∉ (data.map Prod.fst).toFinset \ (current :: checked).toFinset := by
    simp
  exact Finset.card_lt_card ((Finset.ssubset_iff_of_subset hsub).mpr ⟨current, hmem, hnot⟩)

/-- Model of `build_evolution_chains`: the closure set is represented as a
list up to membership. -/
def build_evolution_chains (starter : List String) (data : EvoMap) : List String :=
  chainLoop data starter starter []

theorem mem_foldl_setInsert (targets : List (String × Nat)) (c : List String)
    (x : String) (h : x ∈ c) :
    x ∈ targets.foldl (fun acc p => setInsert acc p.1) c := by
  induction targets generalizing c with
  | nil => exact h
  | cons p rest ih =>
      simp only [List.foldl_cons]
      apply ih
      unfold setInsert
      split
      · exact h
      · exact List.mem_cons_of_mem _ h

theorem target_mem_foldl_setInsert (targets : List (String × Nat)) (c : List String)
    (p : String × Nat) (hp : p ∈ targets) :
    p.1 ∈ targets.foldl (fun acc q => setInsert acc q.1) c := by
  induction targets generalizing c with
  | nil => simp at hp
  | cons q rest ih =>
      simp only [List.foldl_cons]
      rcases List.mem_cons.mp hp with rfl | hp'
      · apply mem_foldl_setInsert
        unfold setInsert
        split
        · assumption
        · exact List.mem_cons_self _ _
      · exact ih _ hp'

theorem mem_of_mem_foldl_setInsert (targets : List (String × Nat)) (c : List String)
    (x : String) (h : x ∈ targets.foldl (fun acc p => setInsert acc p.1) c) :
    x ∈ c ∨ ∃ p ∈ targets, x = p.1 := by
  induction targets generalizing c with
  | nil => exact Or.inl h
  | cons q rest ih =>
      simp only [List.foldl_cons] at h
      rcases ih _ h with h' | ⟨p, hp, rfl⟩
      · unfold setInsert at h'
        split at h'
        · exact Or.inl h'
        · rcases List.mem_cons.mp h' with rfl | h''
          · exact Or.inr ⟨q, List.mem_cons_self _ _, rfl⟩
          · exact Or.inl h''
      · exact Or.inr ⟨p, List.mem_cons_of_mem _ hp, rfl⟩

theorem chainLoop_mono (data : EvoMap) (toCheck chain checked : List String)
    (x : String) (hx : x ∈ chain) : x ∈ chainLoop data toCheck chain checked := by
  induction toCheck, chain, checked using chainLoop.induct data with
  | case1 chain checked => simpa [chainLoop] using hx
  | case2 current rest chain checked hcond ih =>
      rw [chainLoop, if_pos hcond]
      exact ih hx
  | case3 current rest chain checked hcond ih =>
      rw [chainLoop, if_neg hcond]
      exact ih (mem_foldl_setInsert _ _ _ hx)

theorem chainLoop_closed (data : EvoMap) (toCheck chain checked : List String)
    (H1 : ∀ x ∈ checked, ∀ l, alLookup data x = some l → ∀ p ∈ l, p.1 ∈ chain)
    (H2 : ∀ x ∈ chain, x ∈ toCheck ∨ x ∈ checked ∨ alLookup data x = none) :
    ∀ x ∈ chainLoop data toCheck chain checked, ∀ l, alLookup data x = some l →
      ∀ p ∈ l, p.1 ∈ chainLoop data toCheck chain checked := by
  induction toCheck, chain, checked using chainLoop.induct data with
  | case1 chain checked =>
      rw [chainLoop]
      intro x hx l hl p hp
      rcases H2 x hx with h | h | h
      · simp at h
      · exact H1 x h l hl p hp
      · rw [hl] at h
        cases h
  | case2 current rest chain checked hcond ih =>
      rw [chainLoop, if_pos hcond]
      apply ih H1
      intro x hx
      rcases H2 x hx with h | h | h
      · rcases List.mem_cons.mp h with rfl | h'
        · rcases hcond with h'' | h''
          · exact Or.inr (Or.inl h'')
          · exact Or.inr (Or.inr h'')
        · exact Or.inl h'
      · exact Or.inr (Or.inl h)
      · exact Or.inr (Or.inr h)
  | case3 current rest chain checked hcond ih =>
      rw [chainLoop, if_neg hcond]
      have hlcur : alLookup data current ≠ none := fun hn => hcond (Or.inr hn)
      apply ih
      · intro x hx l hl p hp
        rcases List.mem_cons.mp hx with rfl | hx'
        · have : l = (alLookup data x).getD [] := by rw [hl]; rfl
          rw [this] at hp
          exact target_mem_foldl_setInsert _ _ _ hp
        · exact mem_foldl_setInsert _ _ _ (H1 x hx' l hl p hp)
      · intro x hx
        rcases mem_of_mem_foldl_setInsert _ _ _ hx with hx' | ⟨p, hp, rfl⟩
        · rcases H2 x hx' with h | h | h
          · rcases List.mem_cons.mp h with rfl | h'
            · exact Or.inr (Or.inl (List.mem_cons_self _ _))
            · exact Or.inl (List.mem_append_left _ h')
          · exact Or.inr (Or.inl (List.mem_cons_of_mem _ h))
          · exact Or.inr (Or.inr h)
        · by_cases hc : p.1 ∈ current :: checked
          · exact Or.inr (Or.inl hc)
          · refine Or.inl (List.mem_append_right _ ?_)
            exact List.mem_filterMap.mpr ⟨p, hp, by simp [hc]⟩

/-! ## Claims C1, C2, C4 -/

/-- Claim C1, counterexample: in the file `"H\nA -> B\nA -> C"` the line
`A -> B` parses successfully, yet it contributes nothing to the table —
the later line `A -> C` overwrites it in the per-file dict, so
`table[A][0][B]` is absent while `table[A][0][C]` is 1.  This refutes the
claim that two lines in the same file with the same source each contribute
their own increments. -/
theorem claim_C1_counterexample :
    lookupCount (compile_evolution_frequencies ["H\nA -> B\nA -> C"]) "A" 0 "B" = none ∧
    lookupCount (compile_evolution_frequencies ["H\nA -> B\nA -> C"]) "A" 0 "C" = some 1 := by
  constructor
  · decide
  · decide

/-- Claim C1, amended: for every sequence of input file texts, the count at
`table[source][branch][target]` equals the sum over the files of that file's
contribution, where a file contributes 1 exactly when its parsed dictionary
(in which a later line with the same source entity has overwritten any
earlier one) maps the source to a target list whose `branch`-th element is
the target.  Files are processed independently; lines within one file are
not, because of the dict overwrite. -/
theorem claim_C1 (files : List String) (b : String) (i : Nat) (e : String) :
    countOf (compile_evolution_frequencies files) b i e =
      (files.map (fun c => fileContrib c b i e)).sum :=
  countOf_compile files b i e

/-- Claim C2: the result of `build_evolution_chains` contains every seed
entity, and it is a fixed point: every target of every member entity that
occurs as a source key of the mapping is itself a member. -/
theorem claim_C2 (starter : List String) (data : EvoMap) :
    (∀ s ∈ starter, s ∈ build_evolution_chains starter data) ∧
    (∀ x ∈ build_evolution_chains starter data, ∀ l, alLookup data x = some l →
      ∀ p ∈ l, p.1 ∈ build_evolution_chains starter data) := by
  refine ⟨?_, ?_⟩
  · intro s hs
    exact chainLoop_mono data starter starter [] s hs
  · exact chainLoop_closed data starter starter []
      (by intro x hx; simp at hx)
      (fun x hx => Or.inl hx)

/-- Witness for claim C2 at the spec's closure example
`{A: [(B,1)], B: [(C,1)]}` with seed `{A}`: B is reached from the seed. -/
theorem claim_C2_witness :
    "B" ∈ build_evolution_chains ["A"] [("A", [("B", 1)]), ("B", [("C", 1)])] := by
  have h := claim_C2 ["A"] [("A", [("B", 1)]), ("B", [("C", 1)])]
  exact h.2 "A" (h.1 "A" (by decide)) [("B", 1)] (by decide) ("B", 1) (by decide)

/-- Claim C4: the frequency table is invariant under permutation of the
input file sequence — every cell holds the same count (and is present at
all iff present at all), and the key sets at the source and branch levels
coincide. -/
theorem claim_C4 (files files' : List String) (hp : files.Perm files') :
    (∀ b i e, lookupCount (compile_evolution_frequencies files) b i e =
        lookupCount (compile_evolution_frequencies files') b i e) ∧
    (∀ b, b ∈ alKeys (compile_evolution_frequencies files) ↔
        b ∈ alKeys (compile_evolution_frequencies files')) ∧
    (∀ b i, i ∈ alKeys ((alLookup (compile_evolution_frequencies files) b).getD []) ↔
        i ∈ alKeys ((alLookup (compile_evolution_frequencies files') b).getD [])) := by
  have hw := wfTable_compile files
  have hw' := wfTable_compile files'
  have hcount : ∀ b i e, countOf (compile_evolution_frequencies files) b i e =
      countOf (compile_evolution_frequencies files') b i e := by
    intro b i e
    rw [countOf_compile, countOf_compile]
    exact (hp.map (fun c => fileContrib c b i e)).sum_eq
  have hlook : ∀ b i e, lookupCount (compile_evolution_frequencies files) b i e =
      lookupCount (compile_evolution_frequencies files') b i e :=
    fun b i e => lookupCount_eq_of_countOf hw hw' b i e (hcount b i e)
  refine ⟨hlook, ?_, ?_⟩
  · intro b
    rw [sourceKey_iff_of_wf hw b, sourceKey_iff_of_wf hw' b]
    exact exists_congr fun i => exists_congr fun e => by rw [hlook]
  · intro b i
    rw [branchKey_iff_of_wf hw b i, branchKey_iff_of_wf hw' b i]
    exact exists_congr fun e => by rw [hlook]

/-- Witness for claim C4 on a concrete two-file swap. -/
theorem claim_C4_witness :
    (["H\nA -> B", "H2\nA -> B|C"].Perm ["H2\nA -> B|C", "H\nA -> B"]) ∧
    lookupCount (compile_evolution_frequencies ["H\nA -> B", "H2\nA -> B|C"]) "A" 0 "B" =
      lookupCount (compile_evolution_frequencies ["H2\nA -> B|C", "H\nA -> B"]) "A" 0 "B" :=
  ⟨by decide, (claim_C4 _ _ (by decide)).1 "A" 0 "B"⟩

/-! ## Claims C10 and C5 (Branch-grammar separator behaviour) -/

/-- Number of non-overlapping occurrences of the `->` separator in a line
(Python `line.split("->")` yields one part more than there are
occurrences). -/
def arrowCount (line : List Char) : Nat := (splitOn2 '-' '>' line).length - 1

/-- Claim C10: a Branch-grammar line in which the separator occurs more than
once splits into at least three parts, so the `len(parts) != 2` guard drops
it: the line-loop step leaves the per-file dict unchanged, and hence the
line contributes no record to `parse_evolution_file`. -/
theorem claim_C10 (d : List (String × List String)) (line : List Char)
    (h : 2 ≤ arrowCount line) : branchStep d line = d := by
  unfold branchStep
  cases hs : splitOn2 '-' '>' line with
  | nil => rfl
  | cons p ps =>
      cases ps with
      | nil => rfl
      | cons q qs =>
          cases qs with
          | nil =>
              unfold arrowCount at h
              rw [hs] at h
              simp at h
          | cons r rs => rfl

/-- Witness for claim C10 on the line `A -> B -> C`. -/
theorem claim_C10_witness :
    2 ≤ arrowCount "A -> B -> C".data ∧
    branchStep [("X", ["Y"])] "A -> B -> C".data = [("X", ["Y"])] :=
  ⟨by decide, claim_C10 [("X", ["Y"])] _ (by decide)⟩

/-- Claim C5, counterexample: in the Branch grammar a line whose left-hand
side trims to empty does NOT fail — `-> X` produces the record
`("", ["X"])` keyed by the empty string, contrary to the claim that such a
line yields no record in every grammar. -/
theorem claim_C5_counterexample :
    parse_evolution_file "H\n-> X" = [("", ["X"])] := by decide

/-! ## Pair grammar: `parse_evolution_data` (evolution_chain_filter.py)

Source, per (stripped, non-empty) line:

    match = re.match(r'^(\w+(?:\d+)?(?:\w+)?)(?:\s+->)(.+)$', line)
    if match:
        current_pokemon = match.group(1)
        evolutions_data = match.group(2).strip()
        evolutions = []
        for evo_match in re.finditer(r'\(([^,]+), (\d+)\)', evolutions_data):
            evolutions.append((evo_match.group(1), int(evo_match.group(2))))
        evolution_data[current_pokemon] = evolutions

The head regex is deterministic: group 1 is `\w+(?:\d+)?(?:\d+)?(?:\w+)?`
which as a whole is forced to be the maximal word-character prefix (the
following `\s+` cannot match a word character, and word and whitespace
classes are disjoint), then at least one whitespace character, then the
literal `->`, then a non-empty remainder as group 2.  Inputs are stripped
single lines, so the newline restrictions of `.` and `$` never bite. -/

/-- Head-regex match of the Pair grammar: maximal word prefix, at least one
whitespace, literal `->`, non-empty rest. -/
def pairMatch (line : List Char) : Option (List Char × List Char) :=
  let w := line.takeWhile isPyWord
  let rest1 := line.dropWhile isPyWord
  let s := rest1.takeWhile isPySpace
  let rest2 := rest1.dropWhile isPySpace
  if w.isEmpty then none
  else if s.isEmpty then none
  else
    match rest2 with
    | '-' :: '>' :: r => if r.isEmpty then none else some (w, r)
    | _ => none

/-- One match attempt of `\(([^,]+), (\d+)\)` at the current position.
Backtracking is forced: `[^,]+` must run exactly to the first comma, and
`\d+` must be the maximal digit run before the closing parenthesis. -/
def tryPair : List Char → Option ((String × Nat) × List Char)
  | '(' :: rest =>
      let g1 := rest.takeWhile (fun c => c != ',')
      let r1 := rest.dropWhile (fun c => c != ',')
      if g1.isEmpty then none
      else
        match r1 with
        | ',' :: ' ' :: r2 =>
            let ds := r2.takeWhile isPyDigit
            let r3 := r2.dropWhile isPyDigit
            if ds.isEmpty then none
            else
              match r3 with
              | ')' :: r4 => some ((g1.asString, digitsToNat ds), r4)
              | _ => none
        | _ => none
  | _ => none

/-- The `re.finditer` scan: try a match at each position left to right,
resuming after the end of each (non-overlapping) match.  The fuel equals
the scanned length; each step consumes at least one character. -/
def findPairsAux : Nat → List Char → List (String × Nat)
  | 0, _ => []
  | _ + 1, [] => []
  | fuel + 1, c :: rest =>
      match tryPair (c :: rest) with
      | some (p, remainder) => p :: findPairsAux fuel remainder
      | none => findPairsAux fuel rest

/-- All matches of the pair regex, in order. -/
def findPairs (cs : List Char) : List (String × Nat) := findPairsAux cs.length cs

/-- One iteration of the `parse_evolution_data` line loop. -/
def pairLineStep (d : EvoMap) (line : String) : EvoMap :=
  let l := pyStrip line.data
  if l.isEmpty then d
  else
    match pairMatch l with
    | some (w, r) => dictInsert d w.asString (findPairs (pyStrip r))
    | none => d

/-- Model of `parse_evolution_data`, over the file's list of lines. -/
def parse_evolution_data (lines : List String) : EvoMap :=
  lines.foldl pairLineStep []

/-! ## Triple grammar: `parse_patch_file` (revodb.py)

Source, per (stripped, non-empty) line:

    match = re.match(r'(.+?)\s*->\s*(.*)', line)
    if not match: skip
    pokemon = match.group(1).strip()
    evolution_str = match.group(2).strip()
    if not pokemon: skip
    evolution_triples = re.findall(r'\(([^,]+),\s*(\d+),\s*([\d.]+)\)', evolution_str)
    if not evolution_triples: skip
    for evolves_to, count, percentage in evolution_triples:
        evolves_to = evolves_to.strip()
        try:
            count = int(count); percentage = float(percentage)
            if not evolves_to: skip item
            if count <= 0: skip item
            if percentage < 0 or percentage > 100: skip item
            records.append((pokemon, evolves_to, count, percentage))
        except ValueError: skip item

The head regex's lazy `.+?` takes the shortest non-empty prefix after which
(skipping whitespace, which is forced maximal since `-` is not whitespace)
the literal `->` occurs; group 2 is the rest after `->` and any whitespace.
The error log of the source is diagnostic only and is not modelled. -/

/-- Lazy scan of `(.+?)\s*->\s*(.*)`: `acc` holds the reversed group-1
candidate; at each position test for whitespace-then-`->`, else consume one
more (non-newline) character into group 1. -/
def tripleScan (acc : List Char) : List Char → Option (List Char × List Char)
  | [] => none
  | c :: rest' =>
      match (c :: rest').dropWhile isPySpace with
      | '-' :: '>' :: r2 =>
          some (acc.reverse, ((r2.dropWhile isPySpace).takeWhile (fun x => x != '\n')))
      | _ => if c = '\n' then none else tripleScan (c :: acc) rest'

/-- Head-regex match of the Triple grammar (groups 1 and 2). -/
def tripleMatch : List Char → Option (List Char × List Char)
  | [] => none
  | c :: rest => if c = '\n' then none else tripleScan [c] rest

/-- One match attempt of `\(([^,]+),\s*(\d+),\s*([\d.]+)\)` at the current
position; every subgroup's extent is forced as in `tryPair`. -/
def tryTriple : List Char → Option ((List Char × List Char × List Char) × List Char)
  | '(' :: rest =>
      let g1 := rest.takeWhile (fun c => c != ',')
      let r1 := rest.dropWhile (fun c => c != ',')
      if g1.isEmpty then none
      else
        match r1 with
        | ',' :: r2 =>
            let r2' := r2.dropWhile isPySpace
            let g2 := r2'.takeWhile isPyDigit
            let r3 := r2'.dropWhile isPyDigit
            if g2.isEmpty then none
            else
              match r3 with
              | ',' :: r4 =>
                  let r4' := r4.dropWhile isPySpace
                  let g3 := r4'.takeWhile (fun c => isPyDigit c || c = '.')
                  let r5 := r4'.dropWhile (fun c => isPyDigit c || c = '.')
                  if g3.isEmpty then none
                  else
                    match r5 with
                    | ')' :: r6 => some ((g1, g2, g3), r6)
                    | _ => none
              | _ => none
        | _ => none
  | _ => none

/-- The `re.findall` scan for triples, fuelled like `findPairsAux`. -/
def findTriplesAux : Nat → List Char → List (List Char × List Char × List Char)
  | 0, _ => []
  | _ + 1, [] => []
  | fuel + 1, c :: rest =>
      match tryTriple (c :: rest) with
      | some (t, remainder) => t :: findTriplesAux fuel remainder
      | none => findTriplesAux fuel rest

/-- All matches of the triple regex, in order. -/
def findTriples (cs : List Char) : List (List Char × List Char × List Char) :=
  findTriplesAux cs.length cs

/-- Value of Python `float` on a string drawn from the class `[\d.]+`
(exact rational; IEEE rounding not modelled): at most one dot and at least
one digit, else a `ValueError`. -/
def pyFloat (cs : List Char) : Option ℚ :=
  match splitOnChar '.' cs with
  | [intPart] => if intPart.isEmpty then none else some (mkRat (digitsToNat intPart) 1)
  | [intPart, fracPart] =>
      if intPart.isEmpty ∧ fracPart.isEmpty then none
      else some (mkRat (digitsToNat intPart * 10 ^ fracPart.length + digitsToNat fracPart)
        (10 ^ fracPart.length))
  | _ => none

/-- Per-item validation and collection of one matched triple.  `count` is a
`Nat` (the regex class `\d+` admits no sign), so Python's `count <= 0` is
`count = 0` here; `int` on a digit string never raises, so the only
`ValueError` source is `float` on group 3. -/
def tripleValidate (pokemon : String) (acc : List (String × String × Nat × ℚ))
    (tr : List Char × List Char × List Char) : List (String × String × Nat × ℚ) :=
  match pyFloat tr.2.2 with
  | none => acc
  | some percentage =>
      if (pyStrip tr.1).isEmpty then acc
      else if digitsToNat tr.2.1 = 0 then acc
      else if percentage < 0 ∨ percentage > 100 then acc
      else acc ++ [(pokemon, (pyStrip tr.1).asString, digitsToNat tr.2.1, percentage)]

/-- One iteration of the `parse_patch_file` line loop. -/
def patchLineStep (acc : List (String × String × Nat × ℚ)) (line : String) :
    List (String × String × Nat × ℚ) :=
  if (pyStrip line.data).isEmpty then acc
  else
    match tripleMatch (pyStrip line.data) with
    | none => acc
    | some (g1, g2) =>
        if (pyStrip g1).isEmpty then acc
        else if (findTriples (pyStrip g2)).isEmpty then acc
        else (findTriples (pyStrip g2)).foldl (tripleValidate (pyStrip g1).asString) acc

/-- Model of `parse_patch_file` (the records list; the error log is
diagnostic only). -/
def parse_patch_file (lines : List String) : List (String × String × Nat × ℚ) :=
  lines.foldl patchLineStep []

/-! ## Span lemmas for the regex proofs -/

theorem takeWhile_stop {p : Char → Bool} (xs : List Char) (c : Char) (ys : List Char)
    (hx : ∀ a ∈ xs, p a = true) (hc : p c = false) :
    (xs ++ c :: ys).takeWhile p = xs := by
  induction xs with
  | nil => simp [List.takeWhile_cons, hc]
  | cons x xs ih =>
      have hpx : p x = true := hx x (List.mem_cons_self _ _)
      simp only [List.cons_append, List.takeWhile_cons, hpx, if_true]
      rw [ih (fun a ha => hx a (List.mem_cons_of_mem _ ha))]

theorem dropWhile_stop {p : Char → Bool} (xs : List Char) (c : Char) (ys : List Char)
    (hx : ∀ a ∈ xs, p a = true) (hc : p c = false) :
    (xs ++ c :: ys).dropWhile p = c :: ys := by
  induction xs with
  | nil => simp [List.dropWhile_cons, hc]
  | cons x xs ih =>
      have hpx : p x = true := hx x (List.mem_cons_self _ _)
      simp only [List.cons_append, List.dropWhile_cons, hpx, if_true]
      exact ih (fun a ha => hx a (List.mem_cons_of_mem _ ha))

theorem isPySpace_false_of_isPyWord {c : Char} (h : isPyWord c = true) :
    isPySpace c = false := by
  by_contra h2
  have hsp : isPySpace c = true := by
    cases hx : isPySpace c
    · exact absurd hx h2
    · rfl
  have := Bool.or_eq_true_iff.mp hsp
  rcases Bool.or_eq_true_iff.mp hsp with h3 | h3
  · rcases Bool.or_eq_true_iff.mp h3 with h4 | h4
    · rcases Bool.or_eq_true_iff.mp h4 with h5 | h5
      · rcases Bool.or_eq_true_iff.mp h5 with h6 | h6
        · rcases Bool.or_eq_true_iff.mp h6 with h7 | h7
          · have : c = ' ' := by exact_mod_cast of_decide_eq_true h7
            subst this
            exact absurd h (by decide)
          · have : c = '\t' := by exact_mod_cast of_decide_eq_true h7
            subst this
            exact absurd h (by decide)
        · have : c = '\n' := by exact_mod_cast of_decide_eq_true h6
          subst this
          exact absurd h (by decide)
      · have : c = '\r' := by exact_mod_cast of_decide_eq_true h5
        subst this
        exact absurd h (by decide)
    · have : c = '\x0b' := by exact_mod_cast of_decide_eq_true h4
      subst this
      exact absurd h (by decide)
  · have : c = '\x0c' := by exact_mod_cast of_decide_eq_true h3
    subst this
    exact absurd h (by decide)

/-- Strip is the identity on a list whose two ends are non-whitespace. -/
theorem pyStrip_of_ends (c : Char) (mid : List Char) (e : Char)
    (hc : isPySpace c = false) (he : isPySpace e = false) :
    pyStrip (c :: (mid ++ [e])) = c :: (mid ++ [e]) := by
  unfold pyStrip
  rw [List.dropWhile_cons]
  simp only [hc, Bool.false_eq_true, if_false]
  have hrev : (c :: (mid ++ [e])).reverse = e :: (mid.reverse ++ [c]) := by
    simp
  rw [hrev, List.dropWhile_cons]
  simp only [he, Bool.false_eq_true, if_false]
  simp

theorem findPairsAux_nil (fuel : Nat) : findPairsAux fuel [] = [] := by
  cases fuel <;> rfl

theorem findPairsAux_succ (fuel : Nat) (c : Char) (rest : List Char) :
    findPairsAux (fuel + 1) (c :: rest) =
      match tryPair (c :: rest) with
      | some (p, remainder) => p :: findPairsAux fuel remainder
      | none => findPairsAux fuel rest := rfl

/-! ## Claim C9 (Pair-grammar separator needs preceding whitespace) -/

/-- Claim C9, counterexample: the Pair-grammar head regex is
`^(\w+...)(?:\s+->)(.+)$`, whose `\s+` requires at least one whitespace
character between the source and `->`; the line `A-> (B, 1)` therefore
fails to match and produces no record, refuting the claim that it parses
successfully. -/
theorem claim_C9_counterexample :
    parse_evolution_data ["A-> (B, 1)"] = [] := by decide

/-- Claim C9, amended: with at least one whitespace character between the
source and `->` (here one space, as the report renderer emits), a line
`<source> -> (<target>, <count>)` with a non-empty all-word-character
source, a non-empty comma-free newline-free target and a non-empty digit
count parses to exactly the expected single-pair record. -/
theorem claim_C9 (s t d : List Char)
    (hs : s ≠ []) (hsw : ∀ c ∈ s, isPyWord c = true)
    (ht : t ≠ []) (htc : ∀ c ∈ t, (c != ',') = true) (htn : ∀ c ∈ t, ¬ c = '\n')
    (hd : d ≠ []) (hdd : ∀ c ∈ d, isPyDigit c = true) :
    parse_evolution_data
        [(s ++ ' ' :: '-' :: '>' :: ' ' :: '(' ::
            (t ++ ',' :: ' ' :: (d ++ [')']))).asString] =
      [(s.asString, [(t.asString, digitsToNat d)])] := by
  obtain ⟨c₀, s', rfl⟩ : ∃ c₀ s', s = c₀ :: s' := by
    cases s with
    | nil => exact absurd rfl hs
    | cons a as => exact ⟨a, as, rfl⟩
  obtain ⟨t₀, t', rfl⟩ : ∃ t₀ t', t = t₀ :: t' := by
    cases t with
    | nil => exact absurd rfl ht
    | cons a as => exact ⟨a, as, rfl⟩
  obtain ⟨d₀, d', rfl⟩ : ∃ d₀ d', d = d₀ :: d' := by
    cases d with
    | nil => exact absurd rfl hd
    | cons a as => exact ⟨a, as, rfl⟩
  have hc₀w : isPyWord c₀ = true := hsw c₀ (List.mem_cons_self _ _)
  set L := (c₀ :: s') ++ ' ' :: '-' :: '>' :: ' ' :: '(' ::
      ((t₀ :: t') ++ ',' :: ' ' :: ((d₀ :: d') ++ [')'])) with hL
  -- the whole line is strip-invariant: word char at the front, ')' at the back
  have hshape : L = c₀ :: ((s' ++ ' ' :: '-' :: '>' :: ' ' :: '(' ::
      ((t₀ :: t') ++ ',' :: ' ' :: (d₀ :: d'))) ++ [')']) := by
    simp [hL, List.append_assoc]
  have hstrip : pyStrip L = L := by
    rw [hshape]
    exact pyStrip_of_ends _ _ _ (isPySpace_false_of_isPyWord hc₀w) (by decide)
  -- head-regex spans
  have hw : L.takeWhile isPyWord = c₀ :: s' := by
    rw [hL]
    exact takeWhile_stop _ _ _ hsw (by decide)
  have hw' : L.dropWhile isPyWord =
      ' ' :: '-' :: '>' :: ' ' :: '(' ::
        ((t₀ :: t') ++ ',' :: ' ' :: ((d₀ :: d') ++ [')'])) := by
    rw [hL]
    exact dropWhile_stop _ _ _ hsw (by decide)
  have hsp : (' ' :: '-' :: '>' :: ' ' :: '(' ::
      ((t₀ :: t') ++ ',' :: ' ' :: ((d₀ :: d') ++ [')']))).dropWhile isPySpace =
      '-' :: '>' :: ' ' :: '(' ::
        ((t₀ :: t') ++ ',' :: ' ' :: ((d₀ :: d') ++ [')'])) :=
    dropWhile_stop [' '] '-'
      ('>' :: ' ' :: '(' :: ((t₀ :: t') ++ ',' :: ' ' :: ((d₀ :: d') ++ [')'])))
      (by decide) (by decide)
  have hsp2 : (' ' :: '-' :: '>' :: ' ' :: '(' ::
      ((t₀ :: t') ++ ',' :: ' ' :: ((d₀ :: d') ++ [')']))).takeWhile isPySpace = [' '] :=
    takeWhile_stop [' '] '-'
      ('>' :: ' ' :: '(' :: ((t₀ :: t') ++ ',' :: ' ' :: ((d₀ :: d') ++ [')'])))
      (by decide) (by decide)
  have hmatch : pairMatch L =
      some (c₀ :: s', ' ' :: '(' :: ((t₀ :: t') ++ ',' :: ' ' :: ((d₀ :: d') ++ [')']))) := by
    unfold pairMatch
    simp only [hw, hw', hsp2, hsp, List.isEmpty_cons, Bool.false_eq_true, if_false]
  -- strip of the right-hand side
  have hrhs : pyStrip (' ' :: '(' :: ((t₀ :: t') ++ ',' :: ' ' :: ((d₀ :: d') ++ [')']))) =
      '(' :: ((t₀ :: t') ++ ',' :: ' ' :: ((d₀ :: d') ++ [')'])) := by
    have h1 : (' ' :: '(' :: ((t₀ :: t') ++ ',' :: ' ' :: ((d₀ :: d') ++ [')']))) =
        [' '] ++ '(' :: (((t₀ :: t') ++ ',' :: ' ' :: (d₀ :: d')) ++ [')']) := by
      simp [List.append_assoc]
    rw [h1]
    unfold pyStrip
    rw [dropWhile_stop [' '] '(' _ (by intro a ha; simp at ha; subst ha; rfl) (by decide)]
    have h2 : ('(' :: (((t₀ :: t') ++ ',' :: ' ' :: (d₀ :: d')) ++ [')'])).reverse =
        ')' :: (((t₀ :: t') ++ ',' :: ' ' :: (d₀ :: d')).reverse ++ ['(']) := by
      simp
    rw [h2, List.dropWhile_cons]
    simp only [show isPySpace ')' = false from rfl, Bool.false_eq_true, if_false]
    simp [List.append_assoc]
  -- the finditer scan finds exactly the one pair
  have e1 : List.takeWhile (fun c => c != ',')
      ((t₀ :: t') ++ ',' :: ' ' :: ((d₀ :: d') ++ [')'])) = t₀ :: t' :=
    takeWhile_stop _ _ _ htc (by decide)
  have e2 : List.dropWhile (fun c => c != ',')
      ((t₀ :: t') ++ ',' :: ' ' :: ((d₀ :: d') ++ [')'])) =
      ',' :: ' ' :: ((d₀ :: d') ++ [')']) :=
    dropWhile_stop _ _ _ htc (by decide)
  have e3 : List.takeWhile isPyDigit ((d₀ :: d') ++ [')']) = d₀ :: d' :=
    takeWhile_stop _ _ _ hdd (by decide)
  have e4 : List.dropWhile isPyDigit ((d₀ :: d') ++ [')']) = [')'] :=
    dropWhile_stop _ _ _ hdd (by decide)
  have htry : tryPair ('(' :: ((t₀ :: t') ++ ',' :: ' ' :: ((d₀ :: d') ++ [')']))) =
      some (((t₀ :: t').asString, digitsToNat (d₀ :: d')), []) := by
    unfold tryPair
    simp only [e1, e2, e3, e4, List.isEmpty_cons, Bool.false_eq_true, if_false]
  have hfind : findPairs ('(' :: ((t₀ :: t') ++ ',' :: ' ' :: ((d₀ :: d') ++ [')']))) =
      [((t₀ :: t').asString, digitsToNat (d₀ :: d'))] := by
    unfold findPairs
    rw [List.length_cons, findPairsAux_succ, htry]
    simp only [findPairsAux_nil]
  -- assemble
  show parse_evolution_data [L.asString] = _
  unfold parse_evolution_data
  rw [List.foldl_cons, List.foldl_nil]
  unfold pairLineStep
  have hne : L.isEmpty = false := by rw [hshape]; rfl
  have hdata : (L.asString).data = L := rfl
  simp only [hdata, hstrip, hne, Bool.false_eq_true, if_false, hmatch, hrhs, hfind]
  rfl

/-- Witness for claim C9 on the line `A -> (B, 1)`. -/
theorem claim_C9_witness :
    parse_evolution_data ["A -> (B, 1)"] = [("A", [("B", 1)])] := by
  have h := claim_C9 "A".data "B".data "1".data (by decide) (by decide) (by decide)
    (by decide) (by decide) (by decide) (by decide)
  exact h

/-! ## Claims C6 and C7 (record invariants and triple validation) -/

theorem splitOnChar_ne_nil (a : Char) (cs : List Char) : splitOnChar a cs ≠ [] := by
  induction cs with
  | nil => simp [splitOnChar]
  | cons c rest ih =>
      unfold splitOnChar
      by_cases h : c = a
      · simp [h]
      · simp only [h, Bool.false_eq_true, if_false]
        cases hs : splitOnChar a rest with
        | nil => simp
        | cons p ps => simp

theorem mem_dictInsert {κ α : Type} [DecidableEq κ]
    {d : List (κ × α)} {k : κ} {v : α} {x : κ × α}
    (h : x ∈ dictInsert d k v) : x ∈ d ∨ x = (k, v) := by
  induction d with
  | nil =>
      simp only [dictInsert, List.mem_singleton] at h
      exact Or.inr h
  | cons p rest ih =>
      obtain ⟨k₀, v₀⟩ := p
      by_cases hk : k₀ = k
      · subst hk
        rcases List.mem_cons.mp (by simpa [dictInsert] using h) with rfl | h'
        · exact Or.inr rfl
        · exact Or.inl (List.mem_cons_of_mem _ h')
      · rcases List.mem_cons.mp (by simpa [dictInsert, hk] using h) with rfl | h'
        · exact Or.inl (List.mem_cons_self _ _)
        · rcases ih h' with h'' | h''
          · exact Or.inl (List.mem_cons_of_mem _ h'')
          · exact Or.inr h''

theorem asString_ne_empty {l : List Char} (h : l ≠ []) : l.asString ≠ "" := by
  intro hc
  exact h (congrArg String.data hc)

theorem mem_tripleValidate {pk : String} {acc : List (String × String × Nat × ℚ)}
    {tr : List Char × List Char × List Char} {x : String × String × Nat × ℚ}
    (h : x ∈ tripleValidate pk acc tr) : x ∈ acc ∨ x.2.1 ≠ "" := by
  unfold tripleValidate at h
  cases hf : pyFloat tr.2.2 with
  | none =>
      rw [hf] at h
      exact Or.inl h
  | some p =>
      rw [hf] at h
      simp only [] at h
      by_cases he : (pyStrip tr.1).isEmpty = true
      · rw [if_pos he] at h
        exact Or.inl h
      · rw [if_neg he] at h
        by_cases hc : digitsToNat tr.2.1 = 0
        · rw [if_pos hc] at h
          exact Or.inl h
        · rw [if_neg hc] at h
          by_cases hp : p < 0 ∨ p > 100
          · rw [if_pos hp] at h
            exact Or.inl h
          · rw [if_neg hp] at h
            rcases List.mem_append.mp h with h' | h'
            · exact Or.inl h'
            · rcases List.mem_singleton.mp h' with rfl
              refine Or.inr (asString_ne_empty ?_)
              intro hnil
              rw [hnil] at he
              exact he rfl

theorem mem_patchLineStep {acc : List (String × String × Nat × ℚ)} {line : String}
    {x : String × String × Nat × ℚ}
    (h : x ∈ patchLineStep acc line) : x ∈ acc ∨ x.2.1 ≠ "" := by
  unfold patchLineStep at h
  by_cases he : (pyStrip line.data).isEmpty = true
  · rw [if_pos he] at h
    exact Or.inl h
  · rw [if_neg he] at h
    cases hm : tripleMatch (pyStrip line.data) with
    | none =>
        rw [hm] at h
        exact Or.inl h
    | some g =>
        rw [hm] at h
        obtain ⟨g1, g2⟩ := g
        simp only [] at h
        by_cases hp : (pyStrip g1).isEmpty = true
        · rw [if_pos hp] at h
          exact Or.inl h
        · rw [if_neg hp] at h
          by_cases ht : (findTriples (pyStrip g2)).isEmpty = true
          · rw [if_pos ht] at h
            exact Or.inl h
          · rw [if_neg ht] at h
            -- fold of tripleValidate preserves the invariant
            have hfold : ∀ (ts : List (List Char × List Char × List Char))
                (a : List (String × String × Nat × ℚ)),
                x ∈ ts.foldl (tripleValidate (pyStrip g1).asString) a →
                x ∈ a ∨ x.2.1 ≠ "" := by
              intro ts
              induction ts with
              | nil => intro a ha; exact Or.inl ha
              | cons t rest ih =>
                  intro a ha
                  rcases ih _ ha with h' | h'
                  · exact mem_tripleValidate h'
                  · exact Or.inr h'
            exact hfold _ _ h

/-- Claim C6, counterexample: in the Pair grammar the line `A -> junk`
matches the head regex but contains no parenthesized pair, and the source
stores the empty list as the record — a successful line parse with an
empty target list, refuting the claim for that grammar (the Branch grammar
likewise performs no target validation: see `A -> ` yielding `[""]`). -/
theorem claim_C6_counterexample :
    parse_evolution_data ["A -> junk"] = [("A", [])] ∧
    parse_evolution_file "H\nA -> " = [("A", [""])] := by
  constructor
  · decide
  · decide

/-- Claim C6, amended: the invariant holds in the Triple grammar — every
emitted row's target entity is non-empty after trimming, and a line none of
whose triples validate emits no rows.  In the Branch grammar a record's
target list is always non-empty (a split yields at least one piece) but the
individual targets are not validated and may be empty; in the Pair grammar
a record's list may even be empty. -/
theorem claim_C6 :
    (∀ (lines : List String) (r : String × String × Nat × ℚ),
        r ∈ parse_patch_file lines → r.2.1 ≠ "") ∧
    (∀ (content : String) (r : String × List String),
        r ∈ parse_evolution_file content → r.2 ≠ []) := by
  constructor
  · intro lines r hr
    unfold parse_patch_file at hr
    have hfold : ∀ (ls : List String) (acc : List (String × String × Nat × ℚ)),
        (∀ y ∈ acc, y.2.1 ≠ "") → ∀ y ∈ ls.foldl patchLineStep acc, y.2.1 ≠ "" := by
      intro ls
      induction ls with
      | nil => intro acc hacc y hy; exact hacc y hy
      | cons l rest ih =>
          intro acc hacc y hy
          refine ih _ ?_ y hy
          intro z hz
          rcases mem_patchLineStep hz with h' | h'
          · exact hacc z h'
          · exact h'
    exact hfold lines [] (by intro y hy; simp at hy) r hr
  · intro content r hr
    unfold parse_evolution_file at hr
    have hfold : ∀ (ls : List (List Char)) (d : List (String × List String)),
        (∀ y ∈ d, y.2 ≠ []) → ∀ y ∈ ls.foldl branchStep d, y.2 ≠ [] := by
      intro ls
      induction ls with
      | nil => intro d hd y hy; exact hd y hy
      | cons l rest ih =>
          intro d hd y hy
          refine ih _ ?_ y hy
          intro z hz
          unfold branchStep at hz
          cases hs : splitOn2 '-' '>' l with
          | nil =>
              rw [hs] at hz
              exact hd z hz
          | cons p ps =>
              cases ps with
              | nil =>
                  rw [hs] at hz
                  exact hd z hz
              | cons q qs =>
                  cases qs with
                  | nil =>
                      rw [hs] at hz
                      rcases mem_dictInsert hz with h' | rfl
                      · exact hd z h'
                      · simp only [ne_eq, List.map_eq_nil_iff]
                        exact splitOnChar_ne_nil '|' (pyStrip q)
                  | cons u us =>
                      rw [hs] at hz
                      exact hd z hz
    exact hfold _ [] (by intro y hy; simp at hy) r hr

/-- Witness for claim C6 on concrete inputs of both grammars. -/
theorem claim_C6_witness :
    (("A", "B", 1, (50 : ℚ)) ∈ parse_patch_file ["A -> (B, 1, 50)"] ∧
      (("A", "B", 1, (50 : ℚ)) : String × String × Nat × ℚ).2.1 ≠ "") ∧
    (("A", ["B"]) ∈ parse_evolution_file "H\nA -> B" ∧
      (("A", ["B"]) : String × List String).2 ≠ []) :=
  ⟨⟨by decide, claim_C6.1 ["A -> (B, 1, 50)"] _ (by decide)⟩,
   ⟨by decide, claim_C6.2 "H\nA -> B" _ (by decide)⟩⟩

/-- Claim C7: a matched triple `(g1, g2, g3)` whose target trims non-empty
and whose percentage text parses to a number `p` survives validation (is
appended as a row) if and only if its count is positive and `0 ≤ p ≤ 100`;
when the conditions fail, exactly that item is dropped (the accumulator is
unchanged).  On a concrete line the invalid items (count 0, percentage 200,
negative count — the last not even matching the triple regex) are dropped
individually and the valid items still yield rows. -/
theorem claim_C7 :
    (∀ (pk : String) (acc : List (String × String × Nat × ℚ))
        (g1 g2 g3 : List Char) (p : ℚ),
      pyStrip g1 ≠ [] → pyFloat g3 = some p →
      ((tripleValidate pk acc (g1, g2, g3) =
          acc ++ [(pk, (pyStrip g1).asString, digitsToNat g2, p)] ↔
        0 < digitsToNat g2 ∧ 0 ≤ p ∧ p ≤ 100) ∧
       (¬ (0 < digitsToNat g2 ∧ 0 ≤ p ∧ p ≤ 100) →
        tripleValidate pk acc (g1, g2, g3) = acc))) ∧
    parse_patch_file
        ["A -> (B, 1, 50), (C, 0, 50), (D, 2, 200), (E, 3, 0.5), (F, -1, 50)"] =
      [("A", "B", 1, 50), ("A", "E", 3, mkRat 1 2)] := by
  constructor
  · intro pk acc g1 g2 g3 p h1 h2
    have hie : (pyStrip g1).isEmpty = false := by
      cases hg : pyStrip g1 with
      | nil => exact absurd hg h1
      | cons a as => rfl
    unfold tripleValidate
    rw [show (g1, g2, g3).2.2 = g3 from rfl, h2]
    simp only [hie, Bool.false_eq_true, if_false]
    by_cases hc0 : digitsToNat (g1, g2, g3).2.1 = 0
    · rw [if_pos hc0]
      have hc0' : digitsToNat g2 = 0 := hc0
      constructor
      · constructor
        · intro heq
          exfalso
          have hlen := congrArg List.length heq
          simp at hlen
        · intro hcond
          exact absurd hcond.1 (by omega)
      · intro _
        rfl
    · rw [if_neg hc0]
      have hc0' : digitsToNat g2 ≠ 0 := hc0
      by_cases hp : p < 0 ∨ p > 100
      · rw [if_pos hp]
        constructor
        · constructor
          · intro heq
            exfalso
            have hlen := congrArg List.length heq
            simp at hlen
          · intro hcond
            rcases hp with hp | hp
            · exact absurd hcond.2.1 (not_le.mpr hp)
            · exact absurd hcond.2.2 (not_le.mpr hp)
        · intro _
          rfl
      · rw [if_neg hp]
        push_neg at hp
        constructor
        · constructor
          · intro _
            exact ⟨Nat.pos_of_ne_zero hc0', hp.1, hp.2⟩
          · intro _
            rfl
        · intro hcond
          exact absurd ⟨Nat.pos_of_ne_zero hc0', hp.1, hp.2⟩ hcond
  · decide

/-- Witness for claim C7 at a concrete surviving triple. -/
theorem claim_C7_witness :
    tripleValidate "A" [] ("B".data, "2".data, "50".data) =
      [] ++ [("A", (pyStrip "B".data).asString, digitsToNat "2".data, (50 : ℚ))] :=
  ((claim_C7.1 "A" [] "B".data "2".data "50".data 50 (by decide) (by decide)).1).mpr
    (by decide)

/-! ## Claim C5 (missing-separator and empty-left-side behaviour) -/

theorem hasSub2_iff (a b : Char) (cs : List Char) :
    hasSub2 a b cs = true ↔ ∃ ys zs, cs = ys ++ a :: b :: zs := by
  induction cs with
  | nil =>
      constructor
      · intro h
        simp [hasSub2] at h
      · rintro ⟨ys, zs, heq⟩
        cases ys <;> simp at heq
  | cons c₁ rest ih =>
      cases rest with
      | nil =>
          constructor
          · intro h
            simp [hasSub2] at h
          · rintro ⟨ys, zs, heq⟩
            cases ys with
            | nil => simp at heq
            | cons y ys' =>
                simp only [List.cons_append, List.cons.injEq] at heq
                rcases heq with ⟨_, heq2⟩
                cases ys' <;> simp at heq2
      | cons c₂ rest₂ =>
          constructor
          · intro h
            rcases Bool.or_eq_true_iff.mp h with h | h
            · rcases Bool.and_eq_true_iff.mp h with ⟨h1, h2⟩
              have e1 : c₁ = a := of_decide_eq_true h1
              have e2 : c₂ = b := of_decide_eq_true h2
              exact ⟨[], rest₂, by rw [e1, e2]; rfl⟩
            · rcases ih.mp h with ⟨ys, zs, heq⟩
              exact ⟨c₁ :: ys, zs, by rw [List.cons_append, ← heq]⟩
          · rintro ⟨ys, zs, heq⟩
            cases ys with
            | nil =>
                simp only [List.nil_append, List.cons.injEq] at heq
                rcases heq with ⟨rfl, rfl, _⟩
                unfold hasSub2
                simp
            | cons y ys' =>
                simp only [List.cons_append, List.cons.injEq] at heq
                rcases heq with ⟨rfl, heq2⟩
                unfold hasSub2
                refine Bool.or_eq_true_iff.mpr (Or.inr (ih.mpr ⟨ys', zs, heq2⟩))

theorem splitOn2_no_sub (a b : Char) (cs : List Char)
    (h : hasSub2 a b cs = false) : splitOn2 a b cs = [cs] := by
  induction cs with
  | nil => rfl
  | cons c₁ rest ih =>
      cases rest with
      | nil => rfl
      | cons c₂ rest₂ =>
          unfold hasSub2 at h
          have h1 : ¬ (c₁ = a ∧ c₂ = b) := by
            intro ⟨e1, e2⟩
            subst e1
            subst e2
            simp at h
          unfold splitOn2
          rw [if_neg h1]
          rw [ih (Bool.or_eq_false_iff.mp h).2]

theorem head_dropWhile {p : Char → Bool} :
    ∀ {l : List Char} {c : Char} {cs' : List Char},
      l.dropWhile p = c :: cs' → p c = false := by
  intro l
  induction l with
  | nil => intro c cs' h; simp at h
  | cons x xs ih =>
      intro c cs' h
      rw [List.dropWhile_cons] at h
      by_cases hx : p x = true
      · rw [if_pos hx] at h
        exact ih h
      · rw [if_neg hx] at h
        injection h with h1 h2
        subst h1
        exact Bool.eq_false_iff.mpr hx

theorem pyStrip_head {cs : List Char} {c : Char} {rest : List Char}
    (h : pyStrip cs = c :: rest) : isPySpace c = false := by
  unfold pyStrip at h
  have he : (cs.dropWhile isPySpace).reverse.dropWhile isPySpace = rest.reverse ++ [c] := by
    have := congrArg List.reverse h
    simpa using this
  have hsplit : (cs.dropWhile isPySpace).reverse =
      (cs.dropWhile isPySpace).reverse.takeWhile isPySpace ++ (rest.reverse ++ [c]) := by
    conv_lhs => rw [← List.takeWhile_append_dropWhile (p := isPySpace)
      (l := (cs.dropWhile isPySpace).reverse)]
    rw [he]
  have hd : cs.dropWhile isPySpace =
      c :: (rest ++ ((cs.dropWhile isPySpace).reverse.takeWhile isPySpace).reverse) := by
    have h2 := congrArg List.reverse hsplit
    simpa [List.reverse_append] using h2
  exact head_dropWhile hd

theorem dropWhile_append_singleton_ne {p : Char → Bool} {c : Char}
    (hc : p c = false) : ∀ (ys : List Char), (ys ++ [c]).dropWhile p ≠ [] := by
  intro ys
  induction ys with
  | nil => simp [List.dropWhile_cons, hc]
  | cons y ys' ih =>
      rw [List.cons_append, List.dropWhile_cons]
      by_cases hy : p y = true
      · rw [if_pos hy]
        exact ih
      · rw [if_neg hy]
        simp

theorem pyStrip_ne_nil_of_head {c : Char} {l : List Char}
    (hc : isPySpace c = false) : pyStrip (c :: l) ≠ [] := by
  unfold pyStrip
  rw [List.dropWhile_cons, if_neg (by simp [hc])]
  intro hnil
  have : (c :: l).reverse.dropWhile isPySpace = [] := by
    have := congrArg List.reverse hnil
    simpa using this
  rw [List.reverse_cons] at this
  exact dropWhile_append_singleton_ne hc l.reverse this

theorem hasSub2_pyStrip {a b : Char} {cs : List Char}
    (h : hasSub2 a b (pyStrip cs) = true) : hasSub2 a b cs = true := by
  rcases (hasSub2_iff a b (pyStrip cs)).mp h with ⟨ys, zs, heq⟩
  have hdecomp : cs = cs.takeWhile isPySpace ++ (pyStrip cs ++
      ((cs.dropWhile isPySpace).reverse.takeWhile isPySpace).reverse) := by
    conv_lhs => rw [← List.takeWhile_append_dropWhile (p := isPySpace) (l := cs)]
    congr 1
    have hsplit : (cs.dropWhile isPySpace).reverse =
        (cs.dropWhile isPySpace).reverse.takeWhile isPySpace ++
          (cs.dropWhile isPySpace).reverse.dropWhile isPySpace :=
      (List.takeWhile_append_dropWhile _ _).symm
    have h2 := congrArg List.reverse hsplit
    rw [List.reverse_reverse, List.reverse_append] at h2
    exact h2
  refine (hasSub2_iff a b cs).mpr ?_
  refine ⟨cs.takeWhile isPySpace ++ ys, zs ++
      ((cs.dropWhile isPySpace).reverse.takeWhile isPySpace).reverse, ?_⟩
  conv_lhs => rw [hdecomp]
  rw [heq]
  simp [List.append_assoc]

theorem pairMatch_some {line : List Char} {w r : List Char}
    (h : pairMatch line = some (w, r)) :
    w ≠ [] ∧ ∃ ys zs, line = ys ++ '-' :: '>' :: zs := by
  unfold pairMatch at h
  simp only [] at h
  by_cases h1 : (line.takeWhile isPyWord).isEmpty = true
  · rw [if_pos h1] at h
    exact absurd h (by simp)
  · rw [if_neg h1] at h
    by_cases h2 : ((line.dropWhile isPyWord).takeWhile isPySpace).isEmpty = true
    · rw [if_pos h2] at h
      exact absurd h (by simp)
    · rw [if_neg h2] at h
      cases hd : (line.dropWhile isPyWord).dropWhile isPySpace with
      | nil =>
          rw [hd] at h
          exact absurd h (by simp)
      | cons x xs =>
          rw [hd] at h
          by_cases hx : x = '-'
          · subst hx
            cases xs with
            | nil =>
                exact absurd h (by simp)
            | cons x₂ xs₂ =>
                by_cases hx₂ : x₂ = '>'
                · subst hx₂
                  simp only [] at h
                  by_cases h3 : xs₂.isEmpty = true
                  · rw [if_pos h3] at h
                    exact absurd h (by simp)
                  · rw [if_neg h3] at h
                    have hw : w = line.takeWhile isPyWord :=
                      (congrArg Prod.fst (Option.some.inj h)).symm
                    constructor
                    · rw [hw]
                      intro hnil
                      rw [hnil] at h1
                      exact h1 rfl
                    · refine ⟨line.takeWhile isPyWord ++
                        (line.dropWhile isPyWord).takeWhile isPySpace, xs₂, ?_⟩
                      conv_lhs => rw [← List.takeWhile_append_dropWhile
                        (p := isPyWord) (l := line)]
                      conv_lhs => rw [← List.takeWhile_append_dropWhile
                        (p := isPySpace) (l := line.dropWhile isPyWord)]
                      rw [hd]
                      simp [List.append_assoc]
                · exact absurd h (by simp [hx₂])
          · exact absurd h (by simp [hx])

theorem tripleScan_some_arrow :
    ∀ (cs acc g1 g2 : List Char), tripleScan acc cs = some (g1, g2) →
      ∃ ys zs, cs = ys ++ '-' :: '>' :: zs := by
  intro cs
  induction cs with
  | nil =>
      intro acc g1 g2 h
      simp [tripleScan] at h
  | cons c rest' ih =>
      intro acc g1 g2 h
      unfold tripleScan at h
      cases hd : (c :: rest').dropWhile isPySpace with
      | nil =>
          rw [hd] at h
          by_cases hc : c = '\n'
          · rw [if_pos hc] at h
            exact absurd h (by simp)
          · rw [if_neg hc] at h
            rcases ih _ _ _ h with ⟨ys, zs, heq⟩
            exact ⟨c :: ys, zs, by rw [heq]; rfl⟩
      | cons x xs =>
          rw [hd] at h
          by_cases hx : x = '-'
          · subst hx
            cases xs with
            | nil =>
                by_cases hc : c = '\n'
                · rw [if_pos hc] at h
                  exact absurd h (by simp)
                · rw [if_neg hc] at h
                  rcases ih _ _ _ h with ⟨ys, zs, heq⟩
                  exact ⟨c :: ys, zs, by rw [heq]; rfl⟩
            | cons x₂ xs₂ =>
                by_cases hx₂ : x₂ = '>'
                · subst hx₂
                  refine ⟨(c :: rest').takeWhile isPySpace, xs₂, ?_⟩
                  conv_lhs => rw [← List.takeWhile_append_dropWhile
                    (p := isPySpace) (l := c :: rest')]
                  rw [hd]
                · rw [show (match ('-' :: x₂ :: xs₂ : List Char) with
                      | '-' :: '>' :: r2 =>
                          some (acc.reverse,
                            ((r2.dropWhile isPySpace).takeWhile (fun x => x != '\n')))
                      | _ => (if c = '\n' then none
                          else tripleScan (c :: acc) rest')) =
                      (if c = '\n' then none else tripleScan (c :: acc) rest') from by
                    simp [hx₂]] at h
                  by_cases hc : c = '\n'
                  · rw [if_pos hc] at h
                    exact absurd h (by simp)
                  · rw [if_neg hc] at h
                    rcases ih _ _ _ h with ⟨ys, zs, heq⟩
                    exact ⟨c :: ys, zs, by rw [heq]; rfl⟩
          · rw [show (match (x :: xs : List Char) with
                | '-' :: '>' :: r2 =>
                    some (acc.reverse,
                      ((r2.dropWhile isPySpace).takeWhile (fun x => x != '\n')))
                | _ => (if c = '\n' then none
                    else tripleScan (c :: acc) rest')) =
                (if c = '\n' then none else tripleScan (c :: acc) rest') from by
              simp [hx]] at h
            by_cases hc : c = '\n'
            · rw [if_pos hc] at h
              exact absurd h (by simp)
            · rw [if_neg hc] at h
              rcases ih _ _ _ h with ⟨ys, zs, heq⟩
              exact ⟨c :: ys, zs, by rw [heq]; rfl⟩

theorem tripleMatch_some_arrow {line g1 g2 : List Char}
    (h : tripleMatch line = some (g1, g2)) :
    ∃ ys zs, line = ys ++ '-' :: '>' :: zs := by
  cases line with
  | nil => simp [tripleMatch] at h
  | cons c rest =>
      unfold tripleMatch at h
      simp only [] at h
      by_cases hc : c = '\n'
      · rw [if_pos hc] at h
        exact absurd h (by simp)
      · rw [if_neg hc] at h
        rcases tripleScan_some_arrow rest [c] g1 g2 h with ⟨ys, zs, heq⟩
        exact ⟨c :: ys, zs, by rw [heq]; rfl⟩

theorem tripleScan_g1_extends :
    ∀ (cs acc g1 g2 : List Char), tripleScan acc cs = some (g1, g2) →
      ∃ ext, g1 = acc.reverse ++ ext := by
  intro cs
  induction cs with
  | nil =>
      intro acc g1 g2 h
      simp [tripleScan] at h
  | cons c rest' ih =>
      intro acc g1 g2 h
      unfold tripleScan at h
      cases hd : (c :: rest').dropWhile isPySpace with
      | nil =>
          rw [hd] at h
          by_cases hc : c = '\n'
          · rw [if_pos hc] at h
            exact absurd h (by simp)
          · rw [if_neg hc] at h
            rcases ih _ _ _ h with ⟨ext, heq⟩
            exact ⟨c :: ext, by rw [heq]; simp⟩
      | cons x xs =>
          rw [hd] at h
          by_cases hx : x = '-'
          · subst hx
            cases xs with
            | nil =>
                by_cases hc : c = '\n'
                · rw [if_pos hc] at h
                  exact absurd h (by simp)
                · rw [if_neg hc] at h
                  rcases ih _ _ _ h with ⟨ext, heq⟩
                  exact ⟨c :: ext, by rw [heq]; simp⟩
            | cons x₂ xs₂ =>
                by_cases hx₂ : x₂ = '>'
                · subst hx₂
                  simp only [] at h
                  have hg1 : g1 = acc.reverse :=
                    (congrArg Prod.fst (Option.some.inj h)).symm
                  exact ⟨[], by rw [hg1]; simp⟩
                · rw [show (match ('-' :: x₂ :: xs₂ : List Char) with
                      | '-' :: '>' :: r2 =>
                          some (acc.reverse,
                            ((r2.dropWhile isPySpace).takeWhile (fun x => x != '\n')))
                      | _ => (if c = '\n' then none
                          else tripleScan (c :: acc) rest')) =
                      (if c = '\n' then none else tripleScan (c :: acc) rest') from by
                    simp [hx₂]] at h
                  by_cases hc : c = '\n'
                  · rw [if_pos hc] at h
                    exact absurd h (by simp)
                  · rw [if_neg hc] at h
                    rcases ih _ _ _ h with ⟨ext, heq⟩
                    exact ⟨c :: ext, by rw [heq]; simp⟩
          · rw [show (match (x :: xs : List Char) with
                | '-' :: '>' :: r2 =>
                    some (acc.reverse,
                      ((r2.dropWhile isPySpace).takeWhile (fun x => x != '\n')))
                | _ => (if c = '\n' then none
                    else tripleScan (c :: acc) rest')) =
                (if c = '\n' then none else tripleScan (c :: acc) rest') from by
              simp [hx]] at h
            by_cases hc : c = '\n'
            · rw [if_pos hc] at h
              exact absurd h (by simp)
            · rw [if_neg hc] at h
              rcases ih _ _ _ h with ⟨ext, heq⟩
              exact ⟨c :: ext, by rw [heq]; simp⟩

/-- Claim C5, amended: a line with no `->` separator fails to parse in all
three grammars (the per-line step leaves the accumulator unchanged).  A
successful parse in the Pair grammar always has a non-empty source (the
head regex requires `\w+`), and in the Triple grammar a successful head
match on the stripped line always has a source that trims non-empty (the
stripped line starts with a non-whitespace character, which the lazy group
necessarily contains).  In the Branch grammar, however, a line whose left
side trims to empty still produces a record keyed by the empty string (see
the counterexample). -/
theorem claim_C5 (line : String) (d : List (String × List String))
    (dm : EvoMap) (acc : List (String × String × Nat × ℚ)) :
    (hasSub2 '-' '>' line.data = false →
      branchStep d line.data = d ∧ pairLineStep dm line = dm ∧
        patchLineStep acc line = acc) ∧
    (∀ w r, pairMatch (pyStrip line.data) = some (w, r) → w ≠ []) ∧
    (∀ g1 g2, tripleMatch (pyStrip line.data) = some (g1, g2) → pyStrip g1 ≠ []) := by
  refine ⟨?_, ?_, ?_⟩
  · intro h
    refine ⟨?_, ?_, ?_⟩
    · unfold branchStep
      rw [splitOn2_no_sub _ _ _ h]
    · unfold pairLineStep
      by_cases he : (pyStrip line.data).isEmpty = true
      · rw [if_pos he]
      · rw [if_neg he]
        cases hm : pairMatch (pyStrip line.data) with
        | none => rfl
        | some p =>
            exfalso
            obtain ⟨w, r⟩ := p
            rcases pairMatch_some hm with ⟨-, ys, zs, heq⟩
            have h2 : hasSub2 '-' '>' (pyStrip line.data) = true :=
              (hasSub2_iff _ _ _).mpr ⟨ys, zs, heq⟩
            have h3 := hasSub2_pyStrip h2
            rw [h] at h3
            exact absurd h3 (by simp)
    · unfold patchLineStep
      by_cases he : (pyStrip line.data).isEmpty = true
      · rw [if_pos he]
      · rw [if_neg he]
        cases hm : tripleMatch (pyStrip line.data) with
        | none => rfl
        | some p =>
            exfalso
            obtain ⟨g1, g2⟩ := p
            rcases tripleMatch_some_arrow hm with ⟨ys, zs, heq⟩
            have h2 : hasSub2 '-' '>' (pyStrip line.data) = true :=
              (hasSub2_iff _ _ _).mpr ⟨ys, zs, heq⟩
            have h3 := hasSub2_pyStrip h2
            rw [h] at h3
            exact absurd h3 (by simp)
  · intro w r hm
    exact (pairMatch_some hm).1
  · intro g1 g2 hm
    cases hps : pyStrip line.data with
    | nil =>
        rw [hps] at hm
        simp [tripleMatch] at hm
    | cons c rest =>
        rw [hps] at hm
        unfold tripleMatch at hm
        simp only [] at hm
        have hc : isPySpace c = false := pyStrip_head hps
        by_cases hcn : c = '\n'
        · rw [if_pos hcn] at hm
          exact absurd hm (by simp)
        · rw [if_neg hcn] at hm
          rcases tripleScan_g1_extends rest [c] g1 g2 hm with ⟨ext, hg1⟩
          rw [hg1]
          exact pyStrip_ne_nil_of_head hc

/-- Witness for claim C5 on concrete lines for each of its three parts. -/
theorem claim_C5_witness :
    (hasSub2 '-' '>' "no separator".data = false ∧
      branchStep [("X", ["Y"])] "no separator".data = [("X", ["Y"])] ∧
      pairLineStep [("X", [])] "no separator" = [("X", [])] ∧
      patchLineStep [] "no separator" = []) ∧
    (pairMatch (pyStrip "a -> (B, 1)".data) = some ("a".data, " (B, 1)".data) ∧
      "a".data ≠ []) ∧
    (tripleMatch (pyStrip "x -> y".data) = some ("x".data, "y".data) ∧
      pyStrip "x".data ≠ []) := by
  refine ⟨⟨by decide, ?_⟩, ⟨by decide, ?_⟩, ⟨by decide, ?_⟩⟩
  · exact (claim_C5 "no separator" [("X", ["Y"])] [("X", [])] []).1 (by decide)
  · exact (claim_C5 "a -> (B, 1)" [] [] []).2.1 "a".data " (B, 1)".data (by decide)
  · exact (claim_C5 "x -> y" [] [] []).2.2 "x".data "y".data (by decide)

/-! ## Chain filter and output: `filter_evolution_data`, `generate_output`

Source:

    filtered_data = {}
    for pokemon, evolutions in evolution_data.items():
        if pokemon in evolution_chain:
            filtered_data[pokemon] = evolutions

    f.write("# Filtered Evolution Chains\n\n")
    for pokemon, evolutions in sorted(filtered_data.items()):
        evolution_str = ", ".join(f"({name}, {freq})" for name, freq in evolutions)
        f.write(f"{pokemon} -> {evolution_str}\n")

Python sorts the items as (key, value) tuples; dict keys are unique, so the
value component never takes part in a comparison and the sort is by key. -/

/-- Model of `filter_evolution_data`: keep entries whose source is in the
closure, preserving order; target lists are untouched. -/
def filter_evolution_data (evolution_data : EvoMap) (evolution_chain : List String) :
    EvoMap :=
  evolution_data.filter (fun p => decide (p.1 ∈ evolution_chain))

/-- The entries of `generate_output` in emission order (Python
`sorted(filtered_data.items())`, by key since keys are unique). -/
def outputEntries (filtered : EvoMap) : EvoMap :=
  stableSort (fun a b => decide (a.1 ≤ b.1)) filtered

/-- Rendering of one output line `{pokemon} -> ({name}, {freq}), ...`. -/
def renderFilteredLine (p : String × List (String × Nat)) : String :=
  p.1 ++ " -> " ++ String.intercalate ", "
    (p.2.map (fun q => "(" ++ q.1 ++ ", " ++ toString q.2 ++ ")"))

/-- Model of `generate_output` as the list of written lines: the two-line
header (`"# Filtered Evolution Chains\n\n"` is a header line plus a blank
line) followed by one line per retained entry in sorted order. -/
def generate_output (filtered : EvoMap) : List String :=
  "# Filtered Evolution Chains" :: "" :: (outputEntries filtered).map renderFilteredLine

/-! ## Report renderer: `generate_frequency_report` (evolution_analyzer.py)

Source:

    for base_pokemon in sorted(frequencies.keys()):
        branches = frequencies[base_pokemon]
        for branch_index in sorted(branches.keys()):
            if len(branches) > 1:
                branch_base = f"{base_pokemon}{branch_index+1}"
            else:
                branch_base = base_pokemon
            evolutions = branches[branch_index]
            sorted_evolutions = sorted(evolutions.items(), key=lambda x: x[1], reverse=True)
            evolution_list = ", ".join([f"({evo}, {count})" for evo, count in sorted_evolutions])
            report_lines.append(f"{branch_base} -> {evolution_list}")
    return "\\n".join(report_lines)

Python's `reverse=True` stable sort by count equals a stable sort with the
order `b.2 ≤ a.2` (ties keep first-encounter order). -/

/-- Source entities in the order the report visits them. -/
def sortedSources (freq : FreqTable) : List String :=
  stableSort (fun a b => decide (a ≤ b)) (alKeys freq)

/-- The branch dict of one source (`frequencies[base_pokemon]`). -/
def branchesOf (freq : FreqTable) (base : String) : List (Nat × List (String × Nat)) :=
  (alLookup freq base).getD []

/-- Branch indices of one source in the order the report visits them. -/
def sortedBranchKeys (freq : FreqTable) (base : String) : List Nat :=
  stableSort (fun a b => decide (a ≤ b)) (alKeys (branchesOf freq base))

/-- One branch's targets sorted by descending count (stable on ties). -/
def sortedTargets (freq : FreqTable) (base : String) (i : Nat) : List (String × Nat) :=
  stableSort (fun a b => decide (b.2 ≤ a.2)) ((alLookup (branchesOf freq base) i).getD [])

/-- The line rendered for `(base, i)`: the 1-based numeric suffix is added
exactly when the source has more than one branch. -/
def lineFor (freq : FreqTable) (base : String) (i : Nat) : String :=
  (if 1 < (branchesOf freq base).length then base ++ toString (i + 1) else base) ++
    " -> " ++ String.intercalate ", "
      ((sortedTargets freq base i).map (fun p => "(" ++ p.1 ++ ", " ++ toString p.2 ++ ")"))

/-- Model of `generate_frequency_report` as the list of report lines. -/
def generate_frequency_report (freq : FreqTable) : List String :=
  (sortedSources freq).flatMap (fun base => (sortedBranchKeys freq base).map (lineFor freq base))

/-- The `(source, branch)` pairs in report order. -/
def reportPairs (freq : FreqTable) : List (String × Nat) :=
  (sortedSources freq).flatMap (fun base => (sortedBranchKeys freq base).map (fun i => (base, i)))

/-! ## Claims C8 and C3 -/

theorem alLookup_filter (data : EvoMap) (chain : List String) (s : String) :
    alLookup (filter_evolution_data data chain) s =
      if s ∈ chain then alLookup data s else none := by
  induction data with
  | nil => by_cases h : s ∈ chain <;> simp [h, alLookup, filter_evolution_data]
  | cons p rest ih =>
      obtain ⟨k, v⟩ := p
      unfold filter_evolution_data at ih ⊢
      rw [List.filter_cons]
      by_cases hk : k ∈ chain
      · rw [if_pos (by simp [hk])]
        by_cases hks : k = s
        · subst hks
          simp [alLookup, hk]
        · simp only [alLookup, hks, Bool.false_eq_true, if_false]
          rw [ih]
      · rw [if_neg (by simp [hk])]
        rw [ih]
        by_cases hs : s ∈ chain
        · have hks : ¬ k = s := fun he => hk (he ▸ hs)
          simp [hs, alLookup, hks]
        · simp [hs]

/-- Claim C8: the filtered mapping has an entry for a source iff that
source is a key of the original mapping and a member of the closure; a
retained entry keeps its original target list unchanged; and the rendered
output lists the retained entries sorted by source entity (a header plus
one line per entry). -/
theorem claim_C8 (data : EvoMap) (chain : List String) :
    (∀ s, alLookup (filter_evolution_data data chain) s =
        if s ∈ chain then alLookup data s else none) ∧
    (∀ s, (∃ l, alLookup (filter_evolution_data data chain) s = some l) ↔
        s ∈ chain ∧ ∃ l, alLookup data s = some l) ∧
    (outputEntries (filter_evolution_data data chain)).Pairwise
      (fun a b => a.1 ≤ b.1) ∧
    (outputEntries (filter_evolution_data data chain)).Perm
      (filter_evolution_data data chain) ∧
    generate_output (filter_evolution_data data chain) =
      "# Filtered Evolution Chains" :: "" ::
        (outputEntries (filter_evolution_data data chain)).map renderFilteredLine := by
  refine ⟨alLookup_filter data chain, ?_, ?_, stableSort_perm _ _, rfl⟩
  · intro s
    constructor
    · rintro ⟨l, hl⟩
      rw [alLookup_filter] at hl
      by_cases hs : s ∈ chain
      · rw [if_pos hs] at hl
        exact ⟨hs, l, hl⟩
      · rw [if_neg hs] at hl
        exact absurd hl (by simp)
    · rintro ⟨hs, l, hl⟩
      exact ⟨l, by rw [alLookup_filter, if_pos hs]; exact hl⟩
  · have hp := pairwise_stableSort (fun a b : String × List (String × Nat) =>
        decide (a.1 ≤ b.1))
      (fun a b c hab hbc =>
        decide_eq_true (le_trans (of_decide_eq_true hab) (of_decide_eq_true hbc)))
      (fun a b => by
        rcases le_total a.1 b.1 with h | h
        · exact Bool.or_eq_true_iff.mpr (Or.inl (decide_eq_true h))
        · exact Bool.or_eq_true_iff.mpr (Or.inr (decide_eq_true h)))
      (filter_evolution_data data chain)
    exact hp.imp (fun hab => of_decide_eq_true hab)

/-- Claim C3: the report emits exactly one line per `(source, branch)` pair
of the table, the pairs are visited with sources in strictly increasing
lexicographic order and branch indices strictly ascending within a source,
each line carries the 1-based numeric suffix exactly when its source has
more than one branch, and each line's targets are the branch's targets
sorted by descending count. -/
theorem claim_C3 (freq : FreqTable)
    (h1 : (alKeys freq).Nodup)
    (h2 : ∀ base, (alKeys (branchesOf freq base)).Nodup) :
    generate_frequency_report freq =
      (reportPairs freq).map (fun p => lineFor freq p.1 p.2) ∧
    (∀ base i, (base, i) ∈ reportPairs freq ↔
      base ∈ alKeys freq ∧ i ∈ alKeys (branchesOf freq base)) ∧
    (reportPairs freq).Pairwise
      (fun p q => p.1 < q.1 ∨ (p.1 = q.1 ∧ p.2 < q.2)) ∧
    (∀ base i, (sortedTargets freq base i).Pairwise (fun a b => b.2 ≤ a.2) ∧
      (sortedTargets freq base i).Perm
        ((alLookup (branchesOf freq base) i).getD [])) ∧
    (∀ base i, lineFor freq base i =
      (if 1 < (branchesOf freq base).length then base ++ toString (i + 1) else base) ++
        " -> " ++ String.intercalate ", "
          ((sortedTargets freq base i).map
            (fun p => "(" ++ p.1 ++ ", " ++ toString p.2 ++ ")"))) := by
  have hStrTrans : ∀ a b c : String, decide (a ≤ b) = true → decide (b ≤ c) = true →
      decide (a ≤ c) = true := fun a b c hab hbc =>
    decide_eq_true (le_trans (of_decide_eq_true hab) (of_decide_eq_true hbc))
  have hStrTotal : ∀ a b : String, (decide (a ≤ b) || decide (b ≤ a)) = true := by
    intro a b
    rcases le_total a b with h | h
    · exact Bool.or_eq_true_iff.mpr (Or.inl (decide_eq_true h))
    · exact Bool.or_eq_true_iff.mpr (Or.inr (decide_eq_true h))
  have hNatTrans : ∀ a b c : Nat, decide (a ≤ b) = true → decide (b ≤ c) = true →
      decide (a ≤ c) = true := fun a b c hab hbc =>
    decide_eq_true (le_trans (of_decide_eq_true hab) (of_decide_eq_true hbc))
  have hNatTotal : ∀ a b : Nat, (decide (a ≤ b) || decide (b ≤ a)) = true := by
    intro a b
    rcases le_total a b with h | h
    · exact Bool.or_eq_true_iff.mpr (Or.inl (decide_eq_true h))
    · exact Bool.or_eq_true_iff.mpr (Or.inr (decide_eq_true h))
  have hSourcesLt : (sortedSources freq).Pairwise (· < ·) := by
    have hs := pairwise_stableSort (fun a b : String => decide (a ≤ b))
      hStrTrans hStrTotal (alKeys freq)
    have hnd : (sortedSources freq).Nodup :=
      ((stableSort_perm _ _).nodup_iff).mpr h1
    exact (hs.and hnd).imp
      (fun hab => lt_of_le_of_ne (of_decide_eq_true hab.1) hab.2)
  have hBranchesLt : ∀ base, (sortedBranchKeys freq base).Pairwise (· < ·) := by
    intro base
    have hs := pairwise_stableSort (fun a b : Nat => decide (a ≤ b))
      hNatTrans hNatTotal (alKeys (branchesOf freq base))
    have hnd : (sortedBranchKeys freq base).Nodup :=
      ((stableSort_perm _ _).nodup_iff).mpr (h2 base)
    exact (hs.and hnd).imp
      (fun hab => lt_of_le_of_ne (of_decide_eq_true hab.1) hab.2)
  refine ⟨?_, ?_, ?_, ?_, fun base i => rfl⟩
  · unfold generate_frequency_report reportPairs
    rw [List.map_flatMap]
    simp only [List.map_map]
    rfl
  · intro base i
    constructor
    · intro h
      rcases List.mem_flatMap.mp h with ⟨b, hb, hmem⟩
      rcases List.mem_map.mp hmem with ⟨j, hj, heq⟩
      cases heq
      exact ⟨(mem_stableSort _ _ _).mp hb, (mem_stableSort _ _ _).mp hj⟩
    · rintro ⟨hb, hi⟩
      exact List.mem_flatMap.mpr ⟨base, (mem_stableSort _ _ _).mpr hb,
        List.mem_map.mpr ⟨i, (mem_stableSort _ _ _).mpr hi, rfl⟩⟩
  · unfold reportPairs
    refine List.pairwise_flatMap.mpr ⟨?_, ?_⟩
    · intro b _
      refine List.pairwise_map.mpr ?_
      exact (hBranchesLt b).imp (fun hij => Or.inr ⟨rfl, hij⟩)
    · refine hSourcesLt.imp ?_
      intro b₁ b₂ hlt x hx y hy
      rcases List.mem_map.mp hx with ⟨i, _, rfl⟩
      rcases List.mem_map.mp hy with ⟨j, _, rfl⟩
      exact Or.inl hlt
  · intro base i
    constructor
    · have hp := pairwise_stableSort (fun a b : String × Nat => decide (b.2 ≤ a.2))
        (fun a b c hab hbc =>
          decide_eq_true (le_trans (of_decide_eq_true hbc) (of_decide_eq_true hab)))
        (fun a b => by
          rcases le_total b.2 a.2 with h | h
          · exact Bool.or_eq_true_iff.mpr (Or.inl (decide_eq_true h))
          · exact Bool.or_eq_true_iff.mpr (Or.inr (decide_eq_true h)))
        ((alLookup (branchesOf freq base) i).getD [])
      exact hp.imp (fun hab => of_decide_eq_true hab)
    · exact stableSort_perm _ _

/-- Witness for claim C3 at the spec's Eevee example table. -/
theorem claim_C3_witness :
    ((alKeys ([("Eevee", [(0, [("Vaporeon", 1)]), (1, [("Jolteon", 1)])])] :
        FreqTable)).Nodup ∧
      generate_frequency_report
          [("Eevee", [(0, [("Vaporeon", 1)]), (1, [("Jolteon", 1)])])] =
        ["Eevee1 -> (Vaporeon, 1)", "Eevee2 -> (Jolteon, 1)"]) ∧
    generate_frequency_report
        [("Eevee", [(0, [("Vaporeon", 1)]), (1, [("Jolteon", 1)])])] =
      (reportPairs [("Eevee", [(0, [("Vaporeon", 1)]), (1, [("Jolteon", 1)])])]).map
        (fun p => lineFor [("Eevee", [(0, [("Vaporeon", 1)]), (1, [("Jolteon", 1)])])]
          p.1 p.2) :=
  ⟨⟨by decide, by decide⟩,
   (claim_C3 [("Eevee", [(0, [("Vaporeon", 1)]), (1, [("Jolteon", 1)])])]
     (by decide) (fun base => by
       by_cases hb : base = "Eevee"
       · subst hb
         decide
       · simp only [branchesOf, alLookup]
         rw [if_neg (fun h => hb (Eq.symm h))]
         simp)).1⟩

/-- Witness for the amended claim C1 at a concrete single-file input. -/
theorem claim_C1_witness :
    countOf (compile_evolution_frequencies ["H\nA -> B|C"]) "A" 1 "C" =
      (["H\nA -> B|C"].map (fun c => fileContrib c "A" 1 "C")).sum :=
  claim_C1 ["H\nA -> B|C"] "A" 1 "C"

/-- Witness for claim C8 at a concrete mapping and closure. -/
theorem claim_C8_witness :
    alLookup (filter_evolution_data [("A", [("B", 1)]), ("C", [("D", 2)])] ["A"]) "C" =
      (if "C" ∈ ["A"] then alLookup [("A", [("B", 1)]), ("C", [("D", 2)])] "C"
       else none) :=
  (claim_C8 [("A", [("B", 1)]), ("C", [("D", 2)])] ["A"]).1 "C"

end RevoData
